import Mathlib

/-!  Verification of the core routines of a minimal BitTorrent client
(`app/main.py`): the bencode codec, piece-size arithmetic, bitfield
parsing, tracker peer-list parsing, the peer handshake and the
piece-download loop.  Byte strings are modelled as `List Nat`
(each element one byte). -/

namespace Torrent

/-! ## Python-level helpers -/

/-- ASCII decimal digits of `n`, i.e. Python `str(n)` for `n ≥ 0`.
Fuelled so that it computes by kernel reduction; `n + 1` steps of fuel
always suffice because the digit count of `n` is at most `n + 1`. -/
def natDecimalAux : Nat → Nat → List Nat
  | 0, _ => []
  | fuel + 1, n => if n < 10 then [48 + n] else natDecimalAux fuel (n / 10) ++ [48 + n % 10]

def natDecimal (n : Nat) : List Nat := natDecimalAux (n + 1) n

/-- Python `str(n)` for an `int`, as ASCII bytes. -/
def intDecimal (n : Int) : List Nat :=
  if n < 0 then 45 :: natDecimal (-n).toNat else natDecimal n.toNat

/-- ASCII decimal digit test. -/
def isDigit (b : Nat) : Bool := 48 ≤ b && b ≤ 57

/-- Numeric value of a string of ASCII digit bytes. -/
def digitsVal (ds : List Nat) : Nat := ds.foldl (fun acc d => 10 * acc + (d - 48)) 0

/-- Python `int()` on a nonempty all-digit byte string (`none` models the
raised `ValueError` otherwise). -/
def parseDigits (ds : List Nat) : Option Nat :=
  if ds.isEmpty then none
  else if ds.all isDigit then some (digitsVal ds) else none

/-- Python `int()` on ASCII bytes: an optional sign followed by decimal
digits.  (Python also strips surrounding whitespace and allows inner
underscores; those forms never arise in this development and are not
modelled.) -/
def pyIntParse (bs : List Nat) : Option Int :=
  match bs with
  | [] => (parseDigits []).map (fun n => (n : Int))
  | c :: rest =>
      if c = 43 then (parseDigits rest).map (fun n => (n : Int))
      else if c = 45 then (parseDigits rest).map (fun n => -(n : Int))
      else (parseDigits (c :: rest)).map (fun n => (n : Int))

/-- Python `bytes` comparison `a < b`: strict lexicographic order on raw
bytes. -/
def byteLt : List Nat → List Nat → Bool
  | _, [] => false
  | [], _ :: _ => true
  | a :: as, b :: bs => if a < b then true else if b < a then false else byteLt as bs

/-- Python `bytes.find(b)`: index of the first occurrence of byte `b`. -/
def pyFind (b : Nat) : List Nat → Option Nat
  | [] => none
  | x :: xs => if x = b then some 0 else (pyFind b xs).map (· + 1)

/-- Big-endian byte-string value, Python `int.from_bytes(bs, 'big')`
(`0` on the empty string). -/
def beBytesToNat (bs : List Nat) : Nat := bs.foldl (fun acc b => acc * 256 + b) 0

/-- Python `n.to_bytes(length=k, byteorder='big')` (assuming `n < 256^k`). -/
def beBytes : Nat → Nat → List Nat
  | 0, _ => []
  | k + 1, n => beBytes k (n / 256) ++ [n % 256]

/-- Modelled from the spec: UTF-8 encoding of one character, as used by
Python `str.encode()` (RFC 3629; `hashlib`-free pure function). -/
def utf8EncodeChar (c : Char) : List Nat :=
  let n := c.toNat
  if n < 128 then [n]
  else if n < 2048 then [192 + n / 64, 128 + n % 64]
  else if n < 65536 then [224 + n / 4096, 128 + n / 64 % 64, 128 + n % 64]
  else [240 + n / 262144, 128 + n / 4096 % 64, 128 + n / 64 % 64, 128 + n % 64]

/-- Modelled from the spec: Python `s.encode()`, the UTF-8 bytes of a
string. -/
def pyUtf8 (s : String) : List Nat := (s.data.map utf8EncodeChar).flatten

/-! ## The value universe

The dynamic universe of Python values handled by the codec: byte strings
(`bytes`), integers, text strings (`str`, accepted by the encoder only),
lists, dictionaries (modelled as their insertion-ordered key/value entry
list), and `None` (returned by the decoder for an element-free input). -/

inductive Bval where
  | bstr (bs : List Nat)
  | bint (n : Int)
  | pstr (s : String)
  | blist (xs : List Bval)
  | bdict (entries : List (Bval × Bval))
  | pnone

/-- Python `==` on the hashable values that can appear as decoded
dictionary keys (containers are never compared: the dict builder rejects
them first). -/
def pyKeyEq : Bval → Bval → Bool
  | .bstr a, .bstr b => a == b
  | .bint a, .bint b => a == b
  | .pstr a, .pstr b => a == b
  | .pnone, .pnone => true
  | _, _ => false

/-- Raw key bytes of a byte-string key (used to state key ordering). -/
def keyBytes : Bval → List Nat
  | .bstr bs => bs
  | _ => []

/-! ## `bencode_data`: the encoder -/

/-- Bencoding of a byte string: `<decimal length>:<raw bytes>`. -/
def encStrBytes (bs : List Nat) : List Nat := natDecimal bs.length ++ 58 :: bs

/-- Sorted insertion by raw key bytes (Python `sorted` on `bytes` keys). -/
def insertPair (p : List Nat × List Nat) :
    List (List Nat × List Nat) → List (List Nat × List Nat)
  | [] => [p]
  | q :: qs => if byteLt p.1 q.1 then p :: q :: qs else q :: insertPair p qs

/-- Sort dictionary entries by raw key bytes, as `sorted(my_data)` does in
the source (keys of a Python dict are distinct, so any comparison sort
produces the source's order). -/
def sortPairs : List (List Nat × List Nat) → List (List Nat × List Nat)
  | [] => []
  | p :: ps => insertPair p (sortPairs ps)

mutual

/-- `bencode_data` from `app/main.py`: encode a value into bencoded bytes.
`none` models the raised `TypeError` (`None` input, or a dictionary whose
keys are not all byte strings, which `sorted` cannot order against the
source's byte-string keys).  Dictionary entries are encoded first and then
sorted by raw key bytes; the output equals the source's sort-then-encode
order because the comparison reads only the key. -/
def bencode_data : Bval → Option (List Nat)
  | .bdict es =>
      match encPairs es with
      | none => none
      | some ps =>
          some (100 :: (List.map (fun p => encStrBytes p.1 ++ p.2) (sortPairs ps)).flatten ++ [101])
  | .blist xs =>
      match encList xs with
      | none => none
      | some bs => some (108 :: bs.flatten ++ [101])
  | .pstr s => some (natDecimal s.length ++ 58 :: pyUtf8 s)
  | .bint n => some (105 :: intDecimal n ++ [101])
  | .bstr bs => some (encStrBytes bs)
  | .pnone => none

/-- Encode the items of a list, left to right. -/
def encList : List Bval → Option (List (List Nat))
  | [] => some []
  | x :: xs =>
      match bencode_data x, encList xs with
      | some b, some bs => some (b :: bs)
      | _, _ => none

/-- Encode dictionary entries into `(raw key bytes, encoded value)` pairs;
a non-byte-string key is a `TypeError`. -/
def encPairs : List (Bval × Bval) → Option (List (List Nat × List Nat))
  | [] => some []
  | (k, v) :: es =>
      match k with
      | .bstr kb =>
          match bencode_data v, encPairs es with
          | some bv, some ps => some ((kb, bv) :: ps)
          | _, _ => none
      | _ => none

end

/-! ## `_decode_bencode` / `decode_bencode`: the decoder -/

/-- One step of Python dict construction: bind key `k` to `v`, replacing
the value in place when `k` is already present. -/
def pyDictInsert (d : List (Bval × Bval)) (k v : Bval) : List (Bval × Bval) :=
  if d.any (fun p => pyKeyEq p.1 k) then
    d.map (fun p => if pyKeyEq p.1 k then (p.1, v) else p)
  else d ++ [(k, v)]

/-- Python dict construction from a pair list, left to right. -/
def pyDictOfPairs (ps : List (Bval × Bval)) : List (Bval × Bval) :=
  ps.foldl (fun d p => pyDictInsert d p.1 p.2) []

/-- Hashability of a decoded value as a dict key (lists and dicts raise
`TypeError`). -/
def pyHashable : Bval → Bool
  | .blist _ => false
  | .bdict _ => false
  | _ => true

/-- Group a flat element list into consecutive key/value pairs; an odd
count is an error. -/
def toKVPairs : List Bval → Option (List (Bval × Bval))
  | [] => some []
  | [_] => none
  | k :: v :: rest => (toKVPairs rest).map (fun ps => (k, v) :: ps)

/-- Build the Python dict `{result[i]: result[i+1] for i in range(0, len(result), 2)}`
from the flat element list of a decoded dictionary: an odd element count
(checked first by the source) or an unhashable key is an error. -/
def pyDictBuild (es : List Bval) : Option Bval :=
  match toKVPairs es with
  | none => none
  | some ps =>
      if ps.all (fun p => pyHashable p.1) then some (.bdict (pyDictOfPairs ps)) else none

/-- The `while s:` loop of `_decode_bencode` from `app/main.py`, with
explicit fuel (the source loop terminates because every iteration consumes
input; `decode_bencode` below supplies `length + 1` fuel, which always
suffices since every recursive call strictly shortens the input).  It
returns the list of decoded elements plus the unconsumed remainder; the
`_is_list` / `_is_dict` post-processing of the source is applied at the
call sites (the `l` / `d` branches, and `decode_bencode` for the
top-level call).  `none` models a raised error. -/
def decLoop : Nat → List Nat → Option (List Bval × List Nat)
  | 0, _ => none
  | _ + 1, [] => some ([], [])
  | fuel + 1, c :: rest =>
      let s := c :: rest
      if isDigit c then
        match pyFind 58 s with
        | none => none
        | some colonIdx =>
            match pyIntParse (s.take colonIdx) with
            | none => none
            | some len =>
                let n := len.toNat
                let content := (s.drop (colonIdx + 1)).take n
                if content.length = n then
                  match decLoop fuel (s.drop (colonIdx + 1 + n)) with
                  | none => none
                  | some (es, t) => some (.bstr content :: es, t)
                else none
      else if c = 105 then
        match pyFind 101 s with
        | none => none
        | some eIdx =>
            match pyIntParse ((s.drop 1).take (eIdx - 1)) with
            | none => none
            | some n =>
                match decLoop fuel (s.drop (eIdx + 1)) with
                | none => none
                | some (es, t) => some (.bint n :: es, t)
      else if c = 108 then
        match decLoop fuel rest with
        | none => none
        | some (elems, s') =>
            match decLoop fuel s' with
            | none => none
            | some (es, t) => some (.blist elems :: es, t)
      else if c = 100 then
        match decLoop fuel rest with
        | none => none
        | some (elems, s') =>
            match pyDictBuild elems with
            | none => none
            | some d =>
                match decLoop fuel s' with
                | none => none
                | some (es, t) => some (d :: es, t)
      else if c = 101 then some ([], rest)
      else none

/-- `decode_bencode` from `app/main.py`: run the loop on the whole input
and return `result[0] if result else None`.  `none` models a raised
`ValueError`. -/
def decode_bencode (b : List Nat) : Option Bval :=
  match decLoop (b.length + 1) b with
  | none => none
  | some ([], _) => some .pnone
  | some (v :: _, _) => some v

/-! ## The supported round-trip grammar -/

/-- Keys in strictly increasing raw-byte order. -/
def keysSorted : List (Bval × Bval) → Bool
  | [] => true
  | [_] => true
  | p :: q :: es => byteLt (keyBytes p.1) (keyBytes q.1) && keysSorted (q :: es)

mutual

/-- Values of the round-trip grammar: byte strings, integers, lists, and
dictionaries whose keys are byte strings in strictly increasing raw-byte
order (a Python dict is modelled by its key-sorted entry list, so this
covers every Python dict of the grammar). -/
def WF : Bval → Bool
  | .bstr _ => true
  | .bint _ => true
  | .pstr _ => false
  | .pnone => false
  | .blist xs => WFlist xs
  | .bdict es => keysSorted es && WFpairs es

/-- All list items well-formed. -/
def WFlist : List Bval → Bool
  | [] => true
  | x :: xs => WF x && WFlist xs

/-- All keys byte strings and all values well-formed. -/
def WFpairs : List (Bval × Bval) → Bool
  | [] => true
  | (k, v) :: es =>
      (match k with | .bstr _ => true | _ => false) && WF v && WFpairs es

end

/-- A canonical bencoded byte slice: the encoding of a well-formed value
of the supported grammar (the spec's notion: exactly the byte strings the
encoder itself produces, with sorted dictionary keys and minimally written
integers and lengths). -/
def Canonical (b : List Nat) : Prop :=
  ∃ v, WF v = true ∧ bencode_data v = some b

/-- The flat key/value element sequence of a dictionary body, in entry
order (what the decoder loop sees between `d` and `e`). -/
def flattenPairs : List (Bval × Bval) → List Bval
  | [] => []
  | (k, v) :: es => k :: v :: flattenPairs es

/-- The per-element encodings of a dictionary body: encoded key, encoded
value, alternating. -/
def interleaveEnc : List (List Nat × List Nat) → List (List Nat)
  | [] => []
  | p :: ps => encStrBytes p.1 :: p.2 :: interleaveEnc ps

/-! ## Piece arithmetic -/

/-- `get_cur_piece_bytes` from `app/main.py`, with the `piece length` and
`length` fields of the torrent's `info` dict lifted to parameters: the
byte count of piece `cur_piece_index`. -/
def get_cur_piece_bytes (cur_piece_index piece_length file_length : Nat) : Nat :=
  let last_piece_length := file_length % piece_length
  let is_last_piece := cur_piece_index = file_length / piece_length
  if is_last_piece then last_piece_length else piece_length

/-- `get_num_pieces` from `app/main.py`: total piece count
(`file_length // piece_length + (last_piece_length > 0)`, the Python bool
adding as `0` or `1`). -/
def get_num_pieces (piece_length file_length : Nat) : Nat :=
  let last_piece_length := file_length % piece_length
  file_length / piece_length + (if 0 < last_piece_length then 1 else 0)

/-! ## Bitfield parsing -/

/-- The inner (per-byte) loop of `get_piece_to_peer_ips` from
`app/main.py`: test the high bit (`byte & (1 << 7)`), shift left, advance
`piece_idx`, and stop after the given number of bits or as soon as
`piece_idx` reaches `num_pieces`.  Returns the recorded piece indices and
the final `piece_idx`. -/
def byteScan : Nat → Nat → Nat → Nat → List Nat × Nat
  | _, 0, piece_idx, _ => ([], piece_idx)
  | byte, k + 1, piece_idx, num_pieces =>
      if num_pieces ≤ piece_idx + 1 then
        (if (byte &&& (1 <<< 7)) != 0 then [piece_idx] else [], piece_idx + 1)
      else
        (if (byte &&& (1 <<< 7)) != 0 then
            piece_idx :: (byteScan (byte <<< 1) k (piece_idx + 1) num_pieces).1
          else (byteScan (byte <<< 1) k (piece_idx + 1) num_pieces).1,
         (byteScan (byte <<< 1) k (piece_idx + 1) num_pieces).2)

/-- The payload-scanning loop of `get_piece_to_peer_ips` from
`app/main.py`, for one peer: iterate over the payload bytes (eight bits
each, most significant first), breaking out once `piece_idx` reaches
`num_pieces`. -/
def bitfieldLoop : List Nat → Nat → Nat → List Nat
  | [], _, _ => []
  | byte :: restBytes, piece_idx, num_pieces =>
      if num_pieces ≤ (byteScan byte 8 piece_idx num_pieces).2 then
        (byteScan byte 8 piece_idx num_pieces).1
      else
        (byteScan byte 8 piece_idx num_pieces).1 ++
          bitfieldLoop restBytes (byteScan byte 8 piece_idx num_pieces).2 num_pieces

/-- The piece indices a peer is recorded as holding, given its bitfield
payload: the pure core of `get_piece_to_peer_ips` for a single peer
(`piece_idx` starts at `0`). -/
def bitfieldPieces (payload : List Nat) (num_pieces : Nat) : List Nat :=
  bitfieldLoop payload 0 num_pieces

/-! ## Tracker peer list -/

/-- Decimal rendering of one byte (Python `f-string` with format `d`). -/
def natToDecString (n : Nat) : String := ⟨(natDecimal n).map Char.ofNat⟩

/-- `'.'.join(f'b:d' for b in ip_bytes)`: dotted rendering of IP bytes. -/
def ipDottedQuad (bs : List Nat) : String :=
  String.intercalate "." (bs.map natToDecString)

/-- The chunking loop of `get_peer_ips_from_tracker` from `app/main.py`
(fuelled: the loop advances six bytes per step, so `length` fuel always
suffices). -/
def peerChunksLoop : Nat → List Nat → List (String × Nat)
  | 0, _ => []
  | _, [] => []
  | fuel + 1, b :: rest =>
      let s := b :: rest
      (ipDottedQuad (s.take 4), beBytesToNat ((s.drop 4).take 2)) :: peerChunksLoop fuel (s.drop 6)

/-- `get_peer_ips_from_tracker` from `app/main.py`, with the `peers` byte
string of the decoded tracker response lifted to a parameter: split it
into 6-byte chunks, four IP bytes (rendered as a dotted quad) plus a
big-endian 16-bit port each. -/
def get_peer_ips_from_tracker (peers : List Nat) : List (String × Nat) :=
  peerChunksLoop peers.length peers

/-! ## Handshake -/

/-- The bytes of the protocol string `"BitTorrent protocol"`. -/
def protocolStrBytes : List Nat := "BitTorrent protocol".data.map Char.toNat

/-- `_get_peer_id(as_bytes=True)` from `app/main.py`: `b'a' * 20`. -/
def get_peer_id : List Nat := List.replicate 20 97

/-- The 68-byte handshake frame sent by
`_tor_protocol_handshake_with_peer` from `app/main.py`: length 19, the
protocol string, eight zero reserved bytes, the info hash, our peer id. -/
def handshake_message (sha_hash_as_bytes : List Nat) : List Nat :=
  19 :: protocolStrBytes ++ List.replicate 8 0 ++ sha_hash_as_bytes ++ get_peer_id

/-- The receive half of `_tor_protocol_handshake_with_peer` from
`app/main.py`: the bytes of one `recv(1024)` call are taken as is, and the
recorded remote peer id is `peer_handshake_data[-20:]` (the whole buffer
when fewer than 20 bytes arrived).  No field of the reply is validated. -/
def handshake_recv_peer_id (peer_handshake_data : List Nat) : List Nat :=
  peer_handshake_data.drop (peer_handshake_data.length - 20)

/-! ## Piece download -/

/-- `download_piece` from `app/main.py` as a function of the scripted peer
replies, one `(msg_type, payload)` pair per `request` message sent (the
socket receive is sequential, so a reply list determines the run).  The
starting `block_offset` is `0` at the call sites.  `none` models a failed
`assert` or a read from an exhausted reply script; a `msg_type` other than
`7` is only logged by the source, and the expected piece hash is never
consulted. -/
def download_piece (query_piece_index query_piece_num_bytes : Nat) :
    Nat → List (Nat × List Nat) → Option (List Nat)
  | block_offset, [] =>
      if block_offset < query_piece_num_bytes then none else some []
  | block_offset, (_msg_type, payload) :: restReplies =>
      if block_offset < query_piece_num_bytes then
        let block_len_to_downld := min 16384 (query_piece_num_bytes - block_offset)
        if beBytesToNat (payload.take 4) = query_piece_index
            ∧ beBytesToNat ((payload.drop 4).take 4) = block_offset
            ∧ (payload.drop 8).length = block_len_to_downld then
          match download_piece query_piece_index query_piece_num_bytes
              (block_offset + block_len_to_downld) restReplies with
          | none => none
          | some piece => some (payload.drop 8 ++ piece)
        else none
      else some []

/-- The expected 20-byte SHA-1 digest of piece `i`: the slice of the
metainfo `pieces` field at offset `20 * i` (`PIECE_HASH_LEN_BYTES = 20`,
as sliced by the `info` command of `app/main.py`). -/
def expected_piece_hash (pieces : List Nat) (i : Nat) : List Nat :=
  (pieces.drop (20 * i)).take 20

/-- A well-formed reply script delivering the bytes of `target` to
`download_piece`: chunk `target` into blocks of at most `2^14` bytes, each
carried by a `piece` (type 7) message echoing the piece index and block
offset (fuelled; each step consumes at least one byte). -/
def mkPieceScriptAux (idx : Nat) : Nat → Nat → List Nat → List (Nat × List Nat)
  | 0, _, _ => []
  | _, _, [] => []
  | fuel + 1, off, b :: bs =>
      let rem := b :: bs
      let data := rem.take 16384
      (7, beBytes 4 idx ++ beBytes 4 off ++ data) ::
        mkPieceScriptAux idx fuel (off + data.length) (rem.drop 16384)

/-- Reply script delivering exactly the bytes of `target` for piece
`idx`. -/
def mkPieceScript (idx : Nat) (target : List Nat) : List (Nat × List Nat) :=
  mkPieceScriptAux idx target.length 0 target

/-! ## SHA-1 -/

/-- `2^32`. -/
def pow32 : Nat := 4294967296

/-- 32-bit left rotation. -/
def rotl32 (x n : Nat) : Nat := ((x <<< n) ||| (x >>> (32 - n))) % pow32

/-- Modelled from the spec: SHA-1 (`hashlib.sha1`) padding per FIPS 180-1:
a `0x80` byte, zeros to 56 mod 64, then the bit length as eight big-endian
bytes. -/
def sha1Pad (msg : List Nat) : List Nat :=
  msg ++ 128 :: List.replicate ((119 - msg.length % 64) % 64) 0 ++ beBytes 8 (8 * msg.length)

/-- Big-endian 32-bit words of a 64-byte chunk. -/
def chunkWords : List Nat → List Nat
  | a :: b :: c :: d :: rest => (((a * 256 + b) * 256 + c) * 256 + d) :: chunkWords rest
  | _ => []

/-- Message-schedule extension: append `rotl1(w[n-3] ^ w[n-8] ^ w[n-14] ^ w[n-16])`
the given number of times (64 times: 16 words to 80). -/
def sha1ExtendAux : Nat → List Nat → List Nat
  | 0, ws => ws
  | k + 1, ws =>
      let n := ws.length
      sha1ExtendAux k (ws ++ [rotl32 ((ws.getD (n - 3) 0 ^^^ ws.getD (n - 8) 0) ^^^
        (ws.getD (n - 14) 0 ^^^ ws.getD (n - 16) 0)) 1])

/-- Round function `f` of SHA-1 (`~b` is `2^32 - 1 - b` on 32-bit words). -/
def sha1F (i b c d : Nat) : Nat :=
  if i < 20 then (b &&& c) ||| ((pow32 - 1 - b) &&& d)
  else if i < 40 then (b ^^^ c) ^^^ d
  else if i < 60 then ((b &&& c) ||| (b &&& d)) ||| (c &&& d)
  else (b ^^^ c) ^^^ d

/-- Round constants of SHA-1. -/
def sha1K (i : Nat) : Nat :=
  if i < 20 then 1518500249
  else if i < 40 then 1859775393
  else if i < 60 then 2400959708
  else 3395469782

/-- Compression of one 64-byte chunk. -/
def sha1Compress (h : Nat × Nat × Nat × Nat × Nat) (chunk : List Nat) :
    Nat × Nat × Nat × Nat × Nat :=
  let ws := sha1ExtendAux 64 (chunkWords chunk)
  let st := (List.range 80).foldl
    (fun st i =>
      let a := st.1
      let b := st.2.1
      let c := st.2.2.1
      let d := st.2.2.2.1
      let e := st.2.2.2.2
      ((((rotl32 a 5 + sha1F i b c d) + e + sha1K i + ws.getD i 0) % pow32,
        a, rotl32 b 30, c, d) : Nat × Nat × Nat × Nat × Nat)) h
  ((h.1 + st.1) % pow32, (h.2.1 + st.2.1) % pow32, (h.2.2.1 + st.2.2.1) % pow32,
    (h.2.2.2.1 + st.2.2.2.1) % pow32, (h.2.2.2.2 + st.2.2.2.2) % pow32)

/-- 64-byte chunks of a padded message (fuelled). -/
def chunks64Aux : Nat → List Nat → List (List Nat)
  | 0, _ => []
  | _, [] => []
  | fuel + 1, l => l.take 64 :: chunks64Aux fuel (l.drop 64)

/-- Modelled from the spec: SHA-1 (`hashlib.sha1(...).digest()`) of a byte
sequence, per FIPS 180-1, as 20 bytes. -/
def sha1 (msg : List Nat) : List Nat :=
  let padded := sha1Pad msg
  let h := (chunks64Aux padded.length padded).foldl sha1Compress
    (1732584193, 4023233417, 2562383102, 271733878, 3285377520)
  beBytes 4 h.1 ++ beBytes 4 h.2.1 ++ beBytes 4 h.2.2.1 ++ beBytes 4 h.2.2.2.1 ++
    beBytes 4 h.2.2.2.2

/-- `get_info_sha_hash` from `app/main.py` (digest form): SHA-1 of the
bencoded `info` dict. -/
def get_info_sha_hash (info : Bval) : Option (List Nat) :=
  (bencode_data info).map sha1

/-! # Theorems -/

/-! ## C6: piece counts and sizes -/

theorem sum_map_const_range (n c : Nat) :
    ((List.range n).map (fun _ => c)).sum = n * c := by
  induction n with
  | zero => simp
  | succ n ih => rw [List.range_succ, List.map_append, List.sum_append, ih]; simp; ring

/-- **C6.**  For a torrent with positive `piece length` and any `length`,
`get_num_pieces` is the ceiling `⌈length / piece_length⌉`, the per-piece
sizes given by `get_cur_piece_bytes` sum to `length`, every piece but the
last has size `piece_length`, and the last piece's size lies in
`(0, piece_length]`. -/
theorem piece_count_and_sizes (piece_length file_length : Nat) (hP : 0 < piece_length) :
    get_num_pieces piece_length file_length
        = (file_length + piece_length - 1) / piece_length ∧
    ((List.range (get_num_pieces piece_length file_length)).map
        (fun i => get_cur_piece_bytes i piece_length file_length)).sum = file_length ∧
    (∀ i, i + 1 < get_num_pieces piece_length file_length →
        get_cur_piece_bytes i piece_length file_length = piece_length) ∧
    (0 < get_num_pieces piece_length file_length →
        0 < get_cur_piece_bytes (get_num_pieces piece_length file_length - 1)
              piece_length file_length ∧
        get_cur_piece_bytes (get_num_pieces piece_length file_length - 1)
              piece_length file_length ≤ piece_length) := by
  obtain ⟨q, r, hr, hL⟩ :
      ∃ q r, r < piece_length ∧ file_length = piece_length * q + r :=
    ⟨file_length / piece_length, file_length % piece_length,
      Nat.mod_lt _ hP, (Nat.div_add_mod _ _).symm⟩
  subst hL
  have hdiv : (piece_length * q + r) / piece_length = q := by
    rw [Nat.mul_add_div hP, Nat.div_eq_of_lt hr, Nat.add_zero]
  have hmod : (piece_length * q + r) % piece_length = r := by
    rw [Nat.mul_add_mod, Nat.mod_eq_of_lt hr]
  have hnum : get_num_pieces piece_length (piece_length * q + r)
      = q + (if 0 < r then 1 else 0) := by
    simp only [get_num_pieces, hdiv, hmod]
  have hbytes : ∀ i, get_cur_piece_bytes i piece_length (piece_length * q + r)
      = if i = q then r else piece_length := by
    intro i; simp only [get_cur_piece_bytes, hdiv, hmod]
  by_cases hr0 : 0 < r
  · -- a proper last piece of size r
    rw [hnum, if_pos hr0]
    refine ⟨?_, ?_, ?_, ?_⟩
    · have h1 : piece_length * q + r + piece_length - 1
          = piece_length * (q + 1) + (r - 1) := by rw [Nat.mul_succ]; omega
      rw [h1, Nat.mul_add_div hP, Nat.div_eq_of_lt (by omega)]
    · rw [List.range_succ, List.map_append, List.sum_append]
      have h2 : (List.range q).map
            (fun i => get_cur_piece_bytes i piece_length (piece_length * q + r))
          = (List.range q).map (fun _ => piece_length) := by
        refine List.map_congr_left fun i hi => ?_
        rw [hbytes, if_neg (by have := List.mem_range.mp hi; omega)]
      have h3 : ([q].map
            (fun i => get_cur_piece_bytes i piece_length (piece_length * q + r))).sum
          = r := by simp [hbytes]
      rw [h2, sum_map_const_range, h3, Nat.mul_comm]
    · intro i hi; rw [hbytes, if_neg (by omega)]
    · intro _; rw [Nat.add_sub_cancel, hbytes, if_pos rfl]; omega
  · -- piece_length divides file_length
    have hr' : r = 0 := by omega
    subst hr'
    rw [hnum, if_neg (by omega), Nat.add_zero]
    refine ⟨?_, ?_, ?_, ?_⟩
    · have h1 : piece_length * q + 0 + piece_length - 1
          = piece_length * q + (piece_length - 1) := by omega
      rw [h1, Nat.mul_add_div hP, Nat.div_eq_of_lt (by omega)]; omega
    · have h2 : (List.range q).map
            (fun i => get_cur_piece_bytes i piece_length (piece_length * q + 0))
          = (List.range q).map (fun _ => piece_length) := by
        refine List.map_congr_left fun i hi => ?_
        rw [hbytes, if_neg (by have := List.mem_range.mp hi; omega)]
      rw [h2, sum_map_const_range, Nat.mul_comm, Nat.add_zero]
    · intro i hi; rw [hbytes, if_neg (by omega)]
    · intro hq; rw [hbytes, if_neg (by omega)]; omega

/-- Witness for C6 at `piece_length = 4`, `file_length = 10`: three pieces
(sizes 4, 4, 2) summing to 10, count `⌈10/4⌉ = 3`. -/
theorem piece_count_and_sizes_witness :
    get_num_pieces 4 10 = 3 ∧
    ((List.range (get_num_pieces 4 10)).map (fun i => get_cur_piece_bytes i 4 10)).sum = 10 ∧
    get_cur_piece_bytes 0 4 10 = 4 ∧ get_cur_piece_bytes 2 4 10 = 2 := by
  have h := piece_count_and_sizes 4 10 (by omega)
  exact ⟨by decide, h.2.1, by decide, by decide⟩

/-! ## C9: tracker peer list -/

theorem peerChunksLoop_spec :
    ∀ (n fuel : Nat) (peers : List Nat), peers.length = 6 * n → n ≤ fuel →
      peerChunksLoop fuel peers = (List.range n).map (fun k =>
        (ipDottedQuad ((peers.drop (6 * k)).take 4),
         beBytesToNat (((peers.drop (6 * k)).drop 4).take 2))) := by
  intro n
  induction n with
  | zero =>
      intro fuel peers hlen _
      have : peers = [] := List.eq_nil_of_length_eq_zero (by omega)
      subst this
      cases fuel <;> rfl
  | succ n ih =>
      intro fuel peers hlen hfuel
      obtain ⟨f, rfl⟩ : ∃ f, fuel = f + 1 := ⟨fuel - 1, by omega⟩
      cases peers with
      | nil => simp at hlen
      | cons b rest =>
          have hstep : peerChunksLoop (f + 1) (b :: rest)
              = (ipDottedQuad ((b :: rest).take 4),
                 beBytesToNat (((b :: rest).drop 4).take 2)) ::
                peerChunksLoop f ((b :: rest).drop 6) := rfl
          rw [hstep, ih f ((b :: rest).drop 6) (by simp at hlen ⊢; omega) (by omega)]
          rw [List.range_succ_eq_map, List.map_cons, List.map_map]
          refine congrArg₂ _ (by simp) ?_
          refine List.map_congr_left fun k _ => ?_
          have hd : (b :: rest).drop (6 * (k + 1)) = ((b :: rest).drop 6).drop (6 * k) := by
            rw [List.drop_drop]
            have : 6 * (k + 1) = 6 + 6 * k := by ring
            rw [this]
          simp only [Function.comp, Nat.succ_eq_add_one, hd]

/-- **C9 (amended).**  The tracker client splits the `peers` byte string
into 6-byte groups, each yielding the dotted-quad rendering of the first
four bytes and the big-endian 16-bit value of the last two; entries are
kept one per group, in order, without removing duplicates. -/
theorem tracker_peers_chunking (n : Nat) (peers : List Nat) (h : peers.length = 6 * n) :
    (get_peer_ips_from_tracker peers).length = n ∧
    ∀ k, k < n → (get_peer_ips_from_tracker peers).getD k ("", 0)
        = (ipDottedQuad ((peers.drop (6 * k)).take 4),
           beBytesToNat (((peers.drop (6 * k)).drop 4).take 2)) := by
  have hspec := peerChunksLoop_spec n peers.length peers h (by omega)
  rw [get_peer_ips_from_tracker, hspec]
  constructor
  · rw [List.length_map, List.length_range]
  · intro k hk
    rw [List.getD_eq_getElem?_getD, List.getElem?_map, List.getElem?_range hk]
    rfl

/-- Witness for C9 on a single 6-byte group. -/
theorem tracker_peers_chunking_witness :
    (get_peer_ips_from_tracker [10, 0, 0, 7, 1, 187]).length = 1 ∧
    (get_peer_ips_from_tracker [10, 0, 0, 7, 1, 187]).getD 0 ("", 0) = ("10.0.0.7", 443) := by
  have h := tracker_peers_chunking 1 [10, 0, 0, 7, 1, 187] rfl
  refine ⟨h.1, ?_⟩
  rw [h.2 0 (by omega)]
  rfl

/-- **C9 (counterexample).**  A tracker response repeating the same
6-byte peer twice yields a peer list with that peer twice: duplicates are
not removed, contradicting the claimed deduplication. -/
theorem tracker_peers_duplicates_cex :
    get_peer_ips_from_tracker [1, 2, 3, 4, 0, 80, 1, 2, 3, 4, 0, 80]
      = [("1.2.3.4", 80), ("1.2.3.4", 80)] ∧
    (get_peer_ips_from_tracker [1, 2, 3, 4, 0, 80, 1, 2, 3, 4, 0, 80]).getD 0 ("", 0)
      = (get_peer_ips_from_tracker [1, 2, 3, 4, 0, 80, 1, 2, 3, 4, 0, 80]).getD 1 ("", 0) := by
  exact ⟨rfl, rfl⟩

/-! ## C8: handshake -/

theorem handshake_message_decomp (h : List Nat) :
    handshake_message h = (19 :: protocolStrBytes ++ List.replicate 8 0) ++ (h ++ get_peer_id) := by
  simp [handshake_message, List.append_assoc]

/-- **C8 (amended).**  The session sends the 68-byte handshake frame
(`0x13`, the protocol string, eight zero bytes, the 20-byte info hash, the
20-byte peer id); it then performs a single `recv(1024)` and records the
last 20 bytes of whatever arrived as the remote peer id, validating
nothing: neither the protocol string nor the received info hash is
checked, and fewer than 68 received bytes are processed the same way. -/
theorem handshake_send_unvalidated_recv (h : List Nat) (hh : h.length = 20) :
    (handshake_message h).length = 68 ∧
    (handshake_message h).take 20 = 19 :: protocolStrBytes ∧
    ((handshake_message h).drop 28).take 20 = h ∧
    (handshake_message h).drop 48 = get_peer_id ∧
    (∀ data : List Nat, data.length = 68 → handshake_recv_peer_id data = data.drop 48) := by
  have hlen28 : (19 :: protocolStrBytes ++ List.replicate 8 0).length = 28 := by decide
  refine ⟨?_, ?_, ?_, ?_, ?_⟩
  · rw [handshake_message_decomp, List.length_append, hlen28, List.length_append, hh]
    rfl
  · rw [handshake_message_decomp,
      List.take_append_of_le_length (by rw [hlen28]; omega)]
    decide
  · rw [handshake_message_decomp, List.drop_left' hlen28,
      List.take_append_of_le_length (by rw [hh]), List.take_of_length_le (by rw [hh])]
  · rw [handshake_message_decomp]
    have : 48 = (19 :: protocolStrBytes ++ List.replicate 8 0).length + h.length := by
      rw [hlen28, hh]
    rw [this, ← List.length_append, ← List.append_assoc, List.drop_left]
  · intro data hdata
    rw [handshake_recv_peer_id, hdata]

/-- Witness for C8 at a concrete info hash. -/
theorem handshake_send_unvalidated_recv_witness :
    (handshake_message (List.replicate 20 3)).length = 68 ∧
    handshake_recv_peer_id (List.replicate 68 5) = List.replicate 20 5 := by
  have h := handshake_send_unvalidated_recv (List.replicate 20 3) (by decide)
  refine ⟨h.1, ?_⟩
  rw [h.2.2.2.2 (List.replicate 68 5) (by decide)]
  decide

set_option maxRecDepth 40000 in
/-- **C8 (counterexample).**  The claim that the 68 received bytes are
validated is false: on an all-zero 68-byte reply, whose protocol-string
field is not `"BitTorrent protocol"` and whose info-hash field differs
from our own (here the info hash of the empty `info` dict `de`), the
handshake still completes normally and records the last 20 bytes as the
peer id; a 3-byte reply is likewise processed rather than read up to 68
bytes. -/
theorem handshake_no_validation_cex :
    handshake_recv_peer_id (List.replicate 68 0) = List.replicate 20 0 ∧
    (List.replicate 68 0).take 20 ≠ 19 :: protocolStrBytes ∧
    get_info_sha_hash (.bdict []) = some (sha1 [100, 101]) ∧
    ((List.replicate 68 0).drop 28).take 20 ≠ sha1 [100, 101] ∧
    handshake_recv_peer_id [1, 2, 3] = [1, 2, 3] := by
  exact ⟨by decide, by decide, rfl, by decide, rfl⟩


/-! ## C2: piece download -/

theorem length_beBytes (k n : Nat) : (beBytes k n).length = k := by
  induction k generalizing n with
  | zero => rfl
  | succ k ih => simp [beBytes, ih]

theorem beBytesToNat_append_single (xs : List Nat) (b : Nat) :
    beBytesToNat (xs ++ [b]) = beBytesToNat xs * 256 + b := by
  simp [beBytesToNat, List.foldl_append]

theorem beBytesToNat_beBytes (k n : Nat) (h : n < 256 ^ k) :
    beBytesToNat (beBytes k n) = n := by
  induction k generalizing n with
  | zero =>
      have : n = 0 := by simpa using h
      subst this; rfl
  | succ k ih =>
      have hdiv : n / 256 < 256 ^ k := by
        rw [Nat.div_lt_iff_lt_mul (by omega)]
        calc n < 256 ^ (k + 1) := h
        _ = 256 ^ k * 256 := by ring
      rw [beBytes, beBytesToNat_append_single, ih (n / 256) hdiv]
      omega

theorem download_piece_script_aux :
    ∀ (fuel : Nat) (rem : List Nat) (off idx total : Nat),
      idx < 4294967296 → total < 4294967296 →
      off + rem.length = total → rem.length ≤ fuel →
      download_piece idx total off (mkPieceScriptAux idx fuel off rem) = some rem := by
  intro fuel
  induction fuel with
  | zero =>
      intro rem off idx total _ _ hsum hlen
      have hnil : rem = [] := List.eq_nil_of_length_eq_zero (by omega)
      subst hnil
      show download_piece idx total off [] = some []
      rw [download_piece, if_neg (by simp at hsum; omega)]
  | succ fuel ih =>
      intro rem off idx total hidx htot hsum hlen
      cases rem with
      | nil =>
          show download_piece idx total off [] = some []
          rw [download_piece, if_neg (by simp at hsum; omega)]
      | cons b bs =>
          have hofflt : off < total := by simp at hsum; omega
          have hoff32 : off < 4294967296 := by omega
          simp only [mkPieceScriptAux, download_piece]
          set data := (b :: bs).take 16384 with hdata
          have hdlen : data.length = min 16384 (total - off) := by
            rw [hdata, List.length_take]
            have hL : (b :: bs).length = total - off := by omega
            rw [hL]
          have hpay3 : (beBytes 4 idx ++ (beBytes 4 off ++ data)).drop 8 = data := by
            rw [← List.append_assoc]
            refine List.drop_left' ?_
            rw [List.length_append, length_beBytes, length_beBytes]
          have hpay1 : (beBytes 4 idx ++ (beBytes 4 off ++ data)).take 4 = beBytes 4 idx :=
            List.take_left' (length_beBytes 4 idx)
          have hpay2 : ((beBytes 4 idx ++ (beBytes 4 off ++ data)).drop 4).take 4
              = beBytes 4 off := by
            rw [List.drop_left' (length_beBytes 4 idx), List.take_left' (length_beBytes 4 off)]
          rw [List.append_assoc, hpay1, hpay2, hpay3, if_pos hofflt,
            if_pos ⟨beBytesToNat_beBytes 4 idx (by simpa [Nat.pow_succ] using hidx),
              beBytesToNat_beBytes 4 off (by simpa [Nat.pow_succ] using hoff32), hdlen⟩]
          have hdrop : ((b :: bs).drop 16384).length = (b :: bs).length - 16384 :=
            List.length_drop _ _
          have hrec := ih ((b :: bs).drop 16384) (off + data.length) idx total hidx htot
            (by rw [hdrop]; rw [hdata, List.length_take]; omega)
            (by rw [hdrop]; omega)
          rw [← hdlen, hrec]
          simp only [hdata, List.take_append_drop]

/-- **C2 (amended).**  No SHA-1 verification exists in the download path:
`download_piece` checks only the echoed piece index, block offset, and
block length of each `piece` reply and returns the concatenation of the
received block bytes, so a peer delivering any byte string of the right
length has it accepted verbatim — the metainfo `pieces` digests are never
consulted, and no retry on digest mismatch exists. -/
theorem download_piece_accepts_any_bytes (idx : Nat) (target : List Nat)
    (hidx : idx < 4294967296) (hlen : target.length < 4294967296) :
    download_piece idx target.length 0 (mkPieceScript idx target) = some target :=
  download_piece_script_aux target.length target 0 idx target.length hidx hlen
    (by omega) (by omega)

/-- Witness for C2 (amended) on a two-byte piece. -/
theorem download_piece_accepts_any_bytes_witness :
    download_piece 0 2 0 (mkPieceScript 0 [5, 6]) = some [5, 6] :=
  download_piece_accepts_any_bytes 0 [5, 6] (by omega) (by decide)

set_option maxRecDepth 40000 in
/-- **C2 (counterexample).**  A run in which the metainfo `pieces` field
is twenty zero bytes (so the expected digest of piece 0 is twenty zero
bytes) and the peer replies with the single-byte block `[0]`: the
scheduler's `download_piece` returns the piece even though its SHA-1 is
not the expected digest, refuting the claimed verification. -/
theorem download_piece_no_hash_check_cex :
    download_piece 0 1 0 [(7, beBytes 4 0 ++ beBytes 4 0 ++ [0])] = some [0] ∧
    sha1 [0] ≠ expected_piece_hash (List.replicate 20 0) 0 :=
  ⟨rfl, by decide⟩

/-! ## Decimal rendering and parsing -/

theorem digitsVal_append_single (ds : List Nat) (d : Nat) :
    digitsVal (ds ++ [d]) = 10 * digitsVal ds + (d - 48) := by
  simp [digitsVal, List.foldl_append]

theorem natDecimalAux_spec :
    ∀ (fuel n : Nat), n < fuel →
      natDecimalAux fuel n ≠ [] ∧
      (∀ d ∈ natDecimalAux fuel n, 48 ≤ d ∧ d ≤ 57) ∧
      digitsVal (natDecimalAux fuel n) = n := by
  intro fuel
  induction fuel with
  | zero => intro n h; omega
  | succ fuel ih =>
      intro n h
      rw [natDecimalAux]
      by_cases h10 : n < 10
      · rw [if_pos h10]
        refine ⟨by simp, ?_, ?_⟩
        · intro d hd; simp at hd; omega
        · simp [digitsVal]
      · rw [if_neg h10]
        have hrec := ih (n / 10) (by omega)
        refine ⟨by simp, ?_, ?_⟩
        · intro d hd
          rw [List.mem_append] at hd
          rcases hd with hd | hd
          · exact hrec.2.1 d hd
          · simp at hd; omega
        · rw [digitsVal_append_single, hrec.2.2]
          omega

theorem natDecimal_ne_nil (n : Nat) : natDecimal n ≠ [] :=
  (natDecimalAux_spec (n + 1) n (by omega)).1

theorem natDecimal_digits (n : Nat) : ∀ d ∈ natDecimal n, 48 ≤ d ∧ d ≤ 57 :=
  (natDecimalAux_spec (n + 1) n (by omega)).2.1

theorem digitsVal_natDecimal (n : Nat) : digitsVal (natDecimal n) = n :=
  (natDecimalAux_spec (n + 1) n (by omega)).2.2

theorem parseDigits_of_digits (ds : List Nat) (hne : ds ≠ [])
    (hdig : ∀ d ∈ ds, 48 ≤ d ∧ d ≤ 57) : parseDigits ds = some (digitsVal ds) := by
  have hall : ds.all isDigit = true := by
    rw [List.all_eq_true]
    intro x hx
    have := hdig x hx
    simp [isDigit]
    omega
  have hnemp : ds.isEmpty = false := by
    cases ds with
    | nil => exact absurd rfl hne
    | cons d ds => rfl
  rw [parseDigits, hnemp, hall]
  simp

theorem parseDigits_natDecimal (n : Nat) : parseDigits (natDecimal n) = some n := by
  rw [parseDigits_of_digits (natDecimal n) (natDecimal_ne_nil n) (natDecimal_digits n),
    digitsVal_natDecimal]

theorem pyIntParse_of_digits (ds : List Nat) (hne : ds ≠ [])
    (hdig : ∀ d ∈ ds, 48 ≤ d ∧ d ≤ 57) :
    pyIntParse ds = some ((digitsVal ds : Nat) : Int) := by
  cases ds with
  | nil => exact absurd rfl hne
  | cons d ds =>
      have hd := hdig d (by simp)
      have h43 : ¬ d = 43 := by omega
      have h45 : ¬ d = 45 := by omega
      simp [pyIntParse, h43, h45, parseDigits_of_digits _ (by simp) hdig]

theorem pyIntParse_natDecimal (n : Nat) :
    pyIntParse (natDecimal n) = some (n : Int) := by
  cases hnd : natDecimal n with
  | nil => exact absurd hnd (natDecimal_ne_nil n)
  | cons d ds =>
      rw [← hnd, pyIntParse_of_digits _ (natDecimal_ne_nil n) (natDecimal_digits n),
        digitsVal_natDecimal]

theorem intDecimal_mem (n : Int) :
    ∀ d ∈ intDecimal n, d = 45 ∨ (48 ≤ d ∧ d ≤ 57) := by
  intro d hd
  rw [intDecimal] at hd
  by_cases hneg : n < 0
  · rw [if_pos hneg] at hd
    simp only [List.mem_cons] at hd
    rcases hd with rfl | hd
    · left; rfl
    · right; exact natDecimal_digits _ d hd
  · rw [if_neg hneg] at hd
    right; exact natDecimal_digits _ d hd

theorem pyIntParse_intDecimal (n : Int) : pyIntParse (intDecimal n) = some n := by
  rw [intDecimal]
  by_cases hneg : n < 0
  · rw [if_pos hneg]
    simp [pyIntParse, parseDigits_natDecimal]
    omega
  · rw [if_neg hneg, pyIntParse_natDecimal]
    have : ((n.toNat : Nat) : Int) = n := by omega
    rw [this]

/-! ## Finding delimiters -/

theorem pyFind_append_cons (b : Nat) (xs ys : List Nat) (h : ∀ x ∈ xs, x ≠ b) :
    pyFind b (xs ++ b :: ys) = some xs.length := by
  induction xs with
  | nil => simp [pyFind]
  | cons x xs ih =>
      rw [List.cons_append, pyFind, if_neg (h x (by simp))]
      rw [ih (fun y hy => h y (by simp [hy]))]
      rfl

theorem drop_append_cons {α : Type} (a : List α) (b : α) (x : List α) :
    (a ++ b :: x).drop (a.length + 1) = x := by
  rw [show a ++ b :: x = (a ++ [b]) ++ x by simp]
  exact List.drop_left' (by simp)

/-! ## One-step unfoldings of the decoder loop -/

theorem decLoop_zero (s : List Nat) : decLoop 0 s = none := rfl

theorem decLoop_nil (fuel : Nat) : decLoop (fuel + 1) [] = some ([], []) := rfl

theorem decLoop_e (fuel : Nat) (rest : List Nat) :
    decLoop (fuel + 1) (101 :: rest) = some ([], rest) := rfl

theorem decLoop_l (fuel : Nat) (rest : List Nat) :
    decLoop (fuel + 1) (108 :: rest) =
      match decLoop fuel rest with
      | none => none
      | some (elems, s') =>
          match decLoop fuel s' with
          | none => none
          | some (es, t) => some (.blist elems :: es, t) := rfl

theorem decLoop_d (fuel : Nat) (rest : List Nat) :
    decLoop (fuel + 1) (100 :: rest) =
      match decLoop fuel rest with
      | none => none
      | some (elems, s') =>
          match pyDictBuild elems with
          | none => none
          | some dv =>
              match decLoop fuel s' with
              | none => none
              | some (es, t) => some (dv :: es, t) := rfl

theorem decLoop_i (fuel : Nat) (rest : List Nat) :
    decLoop (fuel + 1) (105 :: rest) =
      match pyFind 101 (105 :: rest) with
      | none => none
      | some eIdx =>
          match pyIntParse (((105 :: rest).drop 1).take (eIdx - 1)) with
          | none => none
          | some n =>
              match decLoop fuel ((105 :: rest).drop (eIdx + 1)) with
              | none => none
              | some (es, t) => some (.bint n :: es, t) := rfl

/-! ## C7: bitfield parsing -/

theorem and_128_ne_zero (b : Nat) : ((b &&& (1 <<< 7)) != 0) = b.testBit 7 := by
  have h1 : (1 : Nat) <<< 7 = 2 ^ 7 := rfl
  rw [h1, Nat.and_two_pow]
  cases h : b.testBit 7 <;> simp [h]

theorem byteScan_fst_mem :
    ∀ (k byte piece_idx np x : Nat), k ≤ 8 →
      (x ∈ (byteScan byte k piece_idx np).1 ↔
        ∃ j, j < k ∧ x = piece_idx + j ∧ (j = 0 ∨ piece_idx + j < np) ∧
          byte.testBit (7 - j) = true) := by
  intro k
  induction k with
  | zero =>
      intro byte idx np x _
      rw [byteScan]
      simp
  | succ k ih =>
      intro byte idx np x hk8
      rw [byteScan, and_128_ne_zero]
      by_cases hle : np ≤ idx + 1
      · rw [if_pos hle]
        constructor
        · intro hx
          by_cases hbit : byte.testBit 7
          · rw [if_pos hbit] at hx
            simp at hx
            exact ⟨0, by omega, by omega, Or.inl rfl, by simpa using hbit⟩
          · rw [if_neg hbit] at hx
            simp at hx
        · rintro ⟨j, hj, hxval, hcond, hbit⟩
          have hj0 : j = 0 := by
            rcases hcond with h | h
            · exact h
            · omega
          subst hj0
          simp only [Nat.sub_zero] at hbit
          rw [if_pos hbit]
          simp
          omega
      · rw [if_neg hle]
        have ihr := ih (byte <<< 1) (idx + 1) np x (by omega)
        have hbitshift : ∀ j, j < k → (byte <<< 1).testBit (7 - j) = byte.testBit (7 - (j + 1)) := by
          intro j hj
          rw [Nat.testBit_shiftLeft]
          have h7 : (1 : Nat) ≤ 7 - j := by omega
          have h8 : 7 - j - 1 = 7 - (j + 1) := by omega
          simp [ge_iff_le, h7, h8]
        by_cases hbit : byte.testBit 7
        · rw [if_pos hbit]
          simp only [List.mem_cons, ihr]
          constructor
          · rintro (rfl | ⟨j, hj, hxval, hcond, hb⟩)
            · exact ⟨0, by omega, by omega, Or.inl rfl, by simpa using hbit⟩
            · refine ⟨j + 1, by omega, by omega, Or.inr ?_, ?_⟩
              · rcases hcond with h | h
                · omega
                · omega
              · rw [← hbitshift j (by omega)]; exact hb
          · rintro ⟨j, hj, hxval, hcond, hb⟩
            cases j with
            | zero => left; omega
            | succ j =>
                right
                refine ⟨j, by omega, by omega, ?_, ?_⟩
                · rcases hcond with h | h
                  · omega
                  · right; omega
                · rw [hbitshift j (by omega)]; exact hb
        · rw [if_neg hbit]
          rw [ihr]
          constructor
          · rintro ⟨j, hj, hxval, hcond, hb⟩
            refine ⟨j + 1, by omega, by omega, Or.inr ?_, ?_⟩
            · rcases hcond with h | h
              · omega
              · omega
            · rw [← hbitshift j (by omega)]; exact hb
          · rintro ⟨j, hj, hxval, hcond, hb⟩
            cases j with
            | zero =>
                exfalso
                simp only [Nat.sub_zero] at hb
                exact hbit hb
            | succ j =>
                refine ⟨j, by omega, by omega, ?_, ?_⟩
                · rcases hcond with h | h
                  · omega
                  · right; omega
                · rw [hbitshift j (by omega)]; exact hb

theorem byteScan_snd :
    ∀ (k byte piece_idx np : Nat),
      (byteScan byte (k + 1) piece_idx np).2
        = if np ≤ piece_idx + 1 then piece_idx + 1 else min (piece_idx + (k + 1)) np := by
  intro k
  induction k with
  | zero =>
      intro byte idx np
      rw [byteScan]
      by_cases hle : np ≤ idx + 1
      · rw [if_pos hle, if_pos hle]
      · rw [if_neg hle, if_neg hle]
        show (byteScan (byte <<< 1) 0 (idx + 1) np).2 = min (idx + 1) np
        rw [byteScan]
        show idx + 1 = min (idx + 1) np
        omega
  | succ k ih =>
      intro byte idx np
      rw [byteScan]
      by_cases hle : np ≤ idx + 1
      · rw [if_pos hle, if_pos hle]
      · rw [if_neg hle, if_neg hle]
        show (byteScan (byte <<< 1) (k + 1) (idx + 1) np).2 = min (idx + (k + 1 + 1)) np
        rw [ih]
        by_cases h2 : np ≤ idx + 1 + 1
        · rw [if_pos h2]; omega
        · rw [if_neg h2]; omega

theorem bitfieldLoop_mem :
    ∀ (payload : List Nat) (piece_idx np x : Nat),
      x ∈ bitfieldLoop payload piece_idx np ↔
        ∃ m j, m < payload.length ∧ j < 8 ∧ x = piece_idx + 8 * m + j ∧
          (m = 0 ∨ piece_idx + 8 * m < np) ∧ (j = 0 ∨ piece_idx + 8 * m + j < np) ∧
          (payload.getD m 0).testBit (7 - j) = true := by
  intro payload
  induction payload with
  | nil => intro idx np x; simp [bitfieldLoop]
  | cons byte rest ih =>
      intro idx np x
      rw [bitfieldLoop]
      have hsnd := byteScan_snd 7 byte idx np
      have hfst := byteScan_fst_mem 8 byte idx np x (by omega)
      by_cases hbr : np ≤ (byteScan byte 8 idx np).2
      · rw [if_pos hbr]
        have hnp8 : np ≤ idx + 8 := by
          rw [hsnd] at hbr
          by_cases h1 : np ≤ idx + 1
          · omega
          · rw [if_neg h1] at hbr; omega
        rw [hfst]
        constructor
        · rintro ⟨j, hj, hxval, hcond, hb⟩
          refine ⟨0, j, by simp, hj, by omega, Or.inl rfl, ?_, by simpa using hb⟩
          rcases hcond with h | h
          · exact Or.inl h
          · right; omega
        · rintro ⟨m, j, hm, hj, hxval, hmcond, hjcond, hb⟩
          have hm0 : m = 0 := by
            rcases hmcond with h | h
            · exact h
            · omega
          subst hm0
          refine ⟨j, hj, by omega, ?_, by simpa using hb⟩
          rcases hjcond with h | h
          · exact Or.inl h
          · right; omega
      · rw [if_neg hbr]
        have h1 : ¬ np ≤ idx + 1 := by
          intro h
          rw [hsnd, if_pos h] at hbr
          omega
        have hsnd8 : (byteScan byte 8 idx np).2 = idx + 8 := by
          rw [hsnd, if_neg h1]
          rw [hsnd, if_neg h1] at hbr
          omega
        have hnp8 : idx + 8 < np := by rw [hsnd8] at hbr; omega
        rw [List.mem_append, hfst, hsnd8, ih]
        constructor
        · rintro (⟨j, hj, hxval, hcond, hb⟩ | ⟨m, j, hm, hj, hxval, hmcond, hjcond, hb⟩)
          · refine ⟨0, j, by simp, hj, by omega, Or.inl rfl, ?_, by simpa using hb⟩
            right; omega
          · refine ⟨m + 1, j, by simp; omega, hj, by omega, Or.inr ?_, ?_, by simpa using hb⟩
            · rcases hmcond with h | h
              · omega
              · omega
            · rcases hjcond with h | h
              · exact Or.inl h
              · right; omega
        · rintro ⟨m, j, hm, hj, hxval, hmcond, hjcond, hb⟩
          cases m with
          | zero =>
              left
              refine ⟨j, hj, by omega, ?_, by simpa using hb⟩
              rcases hjcond with h | h
              · exact Or.inl h
              · right; omega
          | succ m =>
              right
              refine ⟨m, j, by simp at hm; omega, hj, by omega, ?_, ?_, by simpa using hb⟩
              · rcases hmcond with h | h
                · omega
                · right; omega
              · rcases hjcond with h | h
                · exact Or.inl h
                · right; omega

/-- **C7 (amended).**  Bitfield parsing is MSB-first: for every payload and
every piece index `i < num_pieces`, the peer is recorded as holding piece
`i` iff bit `7 - i % 8` of payload byte `i / 8` is set (a missing byte
counts as zero); payload `0xE0` with `num_pieces = 4` yields exactly
pieces 0, 1, 2; and for `num_pieces ≥ 1` no index at or beyond
`num_pieces` is recorded (for `num_pieces = 0` the first bit of a
nonempty payload is still examined before the loop's bound check fires,
so the "ignored" part needs `num_pieces ≥ 1`). -/
theorem bitfield_msb_first (payload : List Nat) (np i : Nat) :
    (i < np →
      (i ∈ bitfieldPieces payload np ↔
        (payload.getD (i / 8) 0).testBit (7 - i % 8) = true)) ∧
    (1 ≤ np → ∀ x ∈ bitfieldPieces payload np, x < np) ∧
    bitfieldPieces [224] 4 = [0, 1, 2] := by
  refine ⟨?_, ?_, rfl⟩
  · intro hi
    rw [bitfieldPieces, bitfieldLoop_mem]
    constructor
    · rintro ⟨m, j, hm, hj, hxval, _hmc, _hjc, hb⟩
      have hm' : m = i / 8 := by omega
      have hj' : j = i % 8 := by omega
      rw [← hm', ← hj']
      exact hb
    · intro hb
      by_cases hlen : i / 8 < payload.length
      · refine ⟨i / 8, i % 8, hlen, by omega, by omega, by omega, by omega, hb⟩
      · exfalso
        rw [List.getD_eq_default _ _ (by omega), Nat.zero_testBit] at hb
        simp at hb
  · intro hnp x hx
    rw [bitfieldPieces, bitfieldLoop_mem] at hx
    obtain ⟨m, j, hm, hj, hxval, hmcond, hjcond, _⟩ := hx
    rcases hjcond with h | h
    · subst h
      rcases hmcond with h' | h'
      · omega
      · omega
    · omega

/-- Witness for C7 (amended) on payload `0xE0`, `num_pieces = 4`. -/
theorem bitfield_msb_first_witness :
    (1 ∈ bitfieldPieces [224] 4 ↔ Nat.testBit 224 6 = true) ∧
    (∀ x ∈ bitfieldPieces [224] 4, x < 4) := by
  constructor
  · have h := (bitfield_msb_first [224] 4 1).1 (by omega)
    simpa using h
  · exact (bitfield_msb_first [224] 4 0).2.1 (by omega)

/-- **C7 (counterexample).**  With `num_pieces = 0` and payload `0x80`,
piece index `0` is recorded even though `0` is not below `num_pieces`:
a bit at a position at or beyond `num_pieces` is not ignored, because the
source tests the bit before its `piece_idx >= num_pieces` check. -/
theorem bitfield_beyond_num_pieces_cex :
    0 ∈ bitfieldPieces [128] 0 ∧ ¬ (0 : Nat) < 0 := by
  refine ⟨?_, by omega⟩
  show 0 ∈ bitfieldPieces [128] 0
  have : bitfieldPieces [128] 0 = [0] := rfl
  rw [this]
  simp

theorem decLoop_digit (fuel c : Nat) (r : List Nat) (h : isDigit c = true) :
    decLoop (fuel + 1) (c :: r) =
      match pyFind 58 (c :: r) with
      | none => none
      | some colonIdx =>
          match pyIntParse ((c :: r).take colonIdx) with
          | none => none
          | some len =>
              if (((c :: r).drop (colonIdx + 1)).take len.toNat).length = len.toNat then
                match decLoop fuel ((c :: r).drop (colonIdx + 1 + len.toNat)) with
                | none => none
                | some (es, t) =>
                    some (.bstr (((c :: r).drop (colonIdx + 1)).take len.toNat) :: es, t)
              else none := by
  simp only [decLoop]
  rw [if_pos h]

theorem decLoop_strform (fuel : Nat) (pre s tail : List Nat)
    (hne : pre ≠ []) (hdig : ∀ d ∈ pre, 48 ≤ d ∧ d ≤ 57)
    (hval : digitsVal pre = s.length) :
    decLoop (fuel + 1) (pre ++ 58 :: (s ++ tail)) =
      match decLoop fuel tail with
      | none => none
      | some (es, t) => some (.bstr s :: es, t) := by
  obtain ⟨d, ds, rfl⟩ : ∃ d ds, pre = d :: ds := by
    cases pre with
    | nil => exact absurd rfl hne
    | cons d ds => exact ⟨d, ds, rfl⟩
  have hd := hdig d (by simp)
  have hdigd : isDigit d = true := by simp [isDigit]; omega
  have h1 : pyFind 58 ((d :: ds) ++ 58 :: (s ++ tail)) = some (d :: ds).length :=
    pyFind_append_cons 58 (d :: ds) (s ++ tail) (fun x hx => by have := hdig x hx; omega)
  have h2 : ((d :: ds) ++ 58 :: (s ++ tail)).take (d :: ds).length = d :: ds :=
    List.take_left _ _
  have h3 : pyIntParse (d :: ds) = some (s.length : Int) := by
    rw [pyIntParse_of_digits _ (by simp) hdig, hval]
  have h5 : ((d :: ds) ++ 58 :: (s ++ tail)).drop ((d :: ds).length + 1) = s ++ tail :=
    drop_append_cons _ _ _
  have h6 : (s ++ tail).take s.length = s := List.take_left _ _
  have h8 : ((d :: ds) ++ 58 :: (s ++ tail)).drop ((d :: ds).length + 1 + s.length)
      = tail := by
    rw [show (d :: ds) ++ 58 :: (s ++ tail) = (((d :: ds) ++ [58]) ++ s) ++ tail by simp]
    refine List.drop_left' ?_
    simp
    omega
  rw [List.cons_append, decLoop_digit fuel d (ds ++ 58 :: (s ++ tail)) hdigd,
    ← List.cons_append]
  rw [h1]
  simp only [h2, h3, Int.toNat_natCast, h5, h6, h8, List.length_take]
  simp

theorem decLoop_intform (fuel : Nat) (n : Int) (tail : List Nat) :
    decLoop (fuel + 1) (105 :: (intDecimal n ++ 101 :: tail)) =
      match decLoop fuel tail with
      | none => none
      | some (es, t) => some (.bint n :: es, t) := by
  rw [decLoop_i]
  have h1 : pyFind 101 (105 :: (intDecimal n ++ 101 :: tail))
      = some (105 :: intDecimal n).length := by
    rw [show 105 :: (intDecimal n ++ 101 :: tail) = (105 :: intDecimal n) ++ 101 :: tail
      by simp]
    refine pyFind_append_cons _ _ _ ?_
    intro x hx
    simp only [List.mem_cons] at hx
    rcases hx with rfl | hx
    · omega
    · rcases intDecimal_mem n x hx with h | h <;> omega
  have h2 : ((105 :: (intDecimal n ++ 101 :: tail)).drop 1).take
      ((105 :: intDecimal n).length - 1) = intDecimal n := by
    simp only [List.length_cons, Nat.add_sub_cancel, List.drop_succ_cons, List.drop_zero]
    exact List.take_left _ _
  have h3 : (105 :: (intDecimal n ++ 101 :: tail)).drop ((105 :: intDecimal n).length + 1)
      = tail := by
    rw [show 105 :: (intDecimal n ++ 101 :: tail) = (105 :: intDecimal n) ++ 101 :: tail
      by simp]
    exact drop_append_cons _ _ _
  rw [h1]
  simp only [h2, pyIntParse_intDecimal, h3]

/-! ## Order lemmas for dictionary keys -/

theorem byteLt_irrefl (a : List Nat) : byteLt a a = false := by
  induction a with
  | nil => rfl
  | cons x xs ih => simp [byteLt, ih]

theorem byteLt_ne {a b : List Nat} (h : byteLt a b = true) : a ≠ b := by
  intro heq
  subst heq
  rw [byteLt_irrefl] at h
  exact absurd h (by simp)

theorem byteLt_trans : ∀ a b c : List Nat,
    byteLt a b = true → byteLt b c = true → byteLt a c = true := by
  intro a
  induction a with
  | nil =>
      intro b c hab hbc
      cases b with
      | nil => simp [byteLt] at hab
      | cons y bs =>
          cases c with
          | nil => simp [byteLt] at hbc
          | cons z cs => rfl
  | cons x xs ih =>
      intro b c hab hbc
      cases b with
      | nil => simp [byteLt] at hab
      | cons y bs =>
          cases c with
          | nil => simp [byteLt] at hbc
          | cons z cs =>
              rw [byteLt] at hab hbc ⊢
              by_cases hxy : x < y
              · rw [if_pos hxy] at hab
                by_cases hyz : y < z
                · rw [if_pos (by omega : x < z)]
                · rw [if_neg hyz] at hbc
                  by_cases hzy : z < y
                  · rw [if_pos hzy] at hbc
                    simp at hbc
                  · rw [if_pos (by omega : x < z)]
              · rw [if_neg hxy] at hab
                by_cases hyx : y < x
                · rw [if_pos hyx] at hab
                  simp at hab
                · rw [if_neg hyx] at hab
                  by_cases hyz : y < z
                  · rw [if_pos (by omega : x < z)]
                  · rw [if_neg hyz] at hbc
                    by_cases hzy : z < y
                    · rw [if_pos hzy] at hbc
                      simp at hbc
                    · rw [if_neg hzy] at hbc
                      rw [if_neg (by omega : ¬ x < z), if_neg (by omega : ¬ z < x)]
                      exact ih bs cs hab hbc

theorem keysSorted_cons : ∀ (p : Bval × Bval) (es : List (Bval × Bval)),
    keysSorted (p :: es) = true →
      keysSorted es = true ∧
      ∀ q ∈ es, byteLt (keyBytes p.1) (keyBytes q.1) = true := by
  intro p es
  induction es generalizing p with
  | nil => intro _; exact ⟨rfl, by simp⟩
  | cons q es ih =>
      intro h
      rw [keysSorted] at h
      rw [Bool.and_eq_true] at h
      obtain ⟨hpq, hrest⟩ := h
      have ihq := ih q hrest
      refine ⟨hrest, ?_⟩
      intro r hr
      simp only [List.mem_cons] at hr
      rcases hr with rfl | hr'
      · exact hpq
      · exact byteLt_trans _ _ _ hpq (ihq.2 r hr')

theorem keysSorted_pairwise : ∀ es : List (Bval × Bval), keysSorted es = true →
    es.Pairwise (fun p q => byteLt (keyBytes p.1) (keyBytes q.1) = true) := by
  intro es
  induction es with
  | nil => intro _; exact List.Pairwise.nil
  | cons p es ih =>
      intro h
      have hc := keysSorted_cons p es h
      exact List.Pairwise.cons hc.2 (ih hc.1)

/-! ## Sorting an already sorted dictionary body is the identity -/

theorem insertPair_of_lt (p : List Nat × List Nat) (qs : List (List Nat × List Nat))
    (h : ∀ q ∈ qs, byteLt p.1 q.1 = true) : insertPair p qs = p :: qs := by
  cases qs with
  | nil => rfl
  | cons q qs => rw [insertPair, if_pos (h q (by simp))]

theorem sortPairs_of_pairwise : ∀ ps : List (List Nat × List Nat),
    ps.Pairwise (fun p q => byteLt p.1 q.1 = true) → sortPairs ps = ps := by
  intro ps
  induction ps with
  | nil => intro _; rfl
  | cons p ps ih =>
      intro h
      rw [List.pairwise_cons] at h
      rw [sortPairs, ih h.2, insertPair_of_lt p ps h.1]

theorem encPairs_key_mem : ∀ (es : List (Bval × Bval)) (ps : List (List Nat × List Nat)),
    encPairs es = some ps → ∀ q ∈ ps, ∃ e ∈ es, q.1 = keyBytes e.1 := by
  intro es
  induction es with
  | nil =>
      intro ps h q hq
      simp [encPairs] at h
      subst h
      simp at hq
  | cons e es ih =>
      intro ps h q hq
      obtain ⟨k, v⟩ := e
      cases k with
      | bstr kb =>
          cases hv : bencode_data v with
          | none => rw [encPairs, hv] at h; simp at h
          | some bv =>
              cases hps : encPairs es with
              | none => rw [encPairs, hv, hps] at h; simp at h
              | some ps' =>
                  rw [encPairs, hv, hps] at h
                  simp at h
                  subst h
                  simp only [List.mem_cons] at hq
                  rcases hq with rfl | hq
                  · exact ⟨(Bval.bstr kb, v), by simp, rfl⟩
                  · obtain ⟨e', he', hq'⟩ := ih ps' hps q hq
                    exact ⟨e', by simp [he'], hq'⟩
      | bint m =>
          rw [encPairs] at h
          · simp at h
          · exact fun bs hbs => Bval.noConfusion hbs
      | pstr t =>
          rw [encPairs] at h
          · simp at h
          · exact fun bs hbs => Bval.noConfusion hbs
      | blist xs =>
          rw [encPairs] at h
          · simp at h
          · exact fun bs hbs => Bval.noConfusion hbs
      | bdict ds =>
          rw [encPairs] at h
          · simp at h
          · exact fun bs hbs => Bval.noConfusion hbs
      | pnone =>
          rw [encPairs] at h
          · simp at h
          · exact fun bs hbs => Bval.noConfusion hbs

theorem encPairs_sortPairs : ∀ (es : List (Bval × Bval)) (ps : List (List Nat × List Nat)),
    encPairs es = some ps → keysSorted es = true → sortPairs ps = ps := by
  intro es
  induction es with
  | nil =>
      intro ps h _
      simp [encPairs] at h
      subst h
      rfl
  | cons e es ih =>
      intro ps h hsorted
      obtain ⟨k, v⟩ := e
      cases k with
      | bstr kb =>
          cases hv : bencode_data v with
          | none => rw [encPairs, hv] at h; simp at h
          | some bv =>
              cases hps : encPairs es with
              | none => rw [encPairs, hv, hps] at h; simp at h
              | some ps' =>
                  rw [encPairs, hv, hps] at h
                  simp at h
                  subst h
                  have hc := keysSorted_cons (Bval.bstr kb, v) es hsorted
                  rw [sortPairs, ih ps' hps hc.1]
                  refine insertPair_of_lt _ _ ?_
                  intro q hq
                  obtain ⟨e', he', hq'⟩ := encPairs_key_mem es ps' hps q hq
                  rw [hq']
                  exact hc.2 e' he'
      | bint m =>
          rw [encPairs] at h
          · simp at h
          · exact fun bs hbs => Bval.noConfusion hbs
      | pstr t =>
          rw [encPairs] at h
          · simp at h
          · exact fun bs hbs => Bval.noConfusion hbs
      | blist xs =>
          rw [encPairs] at h
          · simp at h
          · exact fun bs hbs => Bval.noConfusion hbs
      | bdict ds =>
          rw [encPairs] at h
          · simp at h
          · exact fun bs hbs => Bval.noConfusion hbs
      | pnone =>
          rw [encPairs] at h
          · simp at h
          · exact fun bs hbs => Bval.noConfusion hbs

/-! ## The dictionary body as a flat element sequence -/

theorem encPairs_interleave : ∀ (es : List (Bval × Bval)) (ps : List (List Nat × List Nat)),
    encPairs es = some ps → encList (flattenPairs es) = some (interleaveEnc ps) := by
  intro es
  induction es with
  | nil =>
      intro ps h
      simp [encPairs] at h
      subst h
      rfl
  | cons e es ih =>
      intro ps h
      obtain ⟨k, v⟩ := e
      cases k with
      | bstr kb =>
          cases hv : bencode_data v with
          | none => rw [encPairs, hv] at h; simp at h
          | some bv =>
              cases hps : encPairs es with
              | none => rw [encPairs, hv, hps] at h; simp at h
              | some ps' =>
                  rw [encPairs, hv, hps] at h
                  simp at h
                  subst h
                  rw [flattenPairs, encList]
                  rw [show bencode_data (Bval.bstr kb) = some (encStrBytes kb) from rfl]
                  rw [encList, hv, ih ps' hps]
                  rfl
      | bint m =>
          rw [encPairs] at h
          · simp at h
          · exact fun bs hbs => Bval.noConfusion hbs
      | pstr t =>
          rw [encPairs] at h
          · simp at h
          · exact fun bs hbs => Bval.noConfusion hbs
      | blist xs =>
          rw [encPairs] at h
          · simp at h
          · exact fun bs hbs => Bval.noConfusion hbs
      | bdict ds =>
          rw [encPairs] at h
          · simp at h
          · exact fun bs hbs => Bval.noConfusion hbs
      | pnone =>
          rw [encPairs] at h
          · simp at h
          · exact fun bs hbs => Bval.noConfusion hbs

theorem interleave_flatten : ∀ ps : List (List Nat × List Nat),
    (interleaveEnc ps).flatten = (List.map (fun p => encStrBytes p.1 ++ p.2) ps).flatten := by
  intro ps
  induction ps with
  | nil => rfl
  | cons p ps ih => simp [interleaveEnc, ih]

theorem WFpairs_cons_bstr (kb : List Nat) (v : Bval) (es : List (Bval × Bval)) :
    WFpairs ((Bval.bstr kb, v) :: es) = (WF v && WFpairs es) := by
  simp [WFpairs]

theorem WFpairs_cons_elim (k v : Bval) (es : List (Bval × Bval))
    (h : WFpairs ((k, v) :: es) = true) :
    (∃ kb, k = Bval.bstr kb) ∧ WF v = true ∧ WFpairs es = true := by
  cases k with
  | bstr kb =>
      rw [WFpairs_cons_bstr, Bool.and_eq_true] at h
      exact ⟨⟨kb, rfl⟩, h.1, h.2⟩
  | bint m => simp [WFpairs] at h
  | pstr t => simp [WFpairs] at h
  | blist xs => simp [WFpairs] at h
  | bdict ds => simp [WFpairs] at h
  | pnone => simp [WFpairs] at h

theorem WFpairs_keys : ∀ es : List (Bval × Bval), WFpairs es = true →
    ∀ p ∈ es, ∃ kb, p.1 = Bval.bstr kb := by
  intro es
  induction es with
  | nil => intro _ p hp; simp at hp
  | cons e es ih =>
      intro h p hp
      obtain ⟨k, v⟩ := e
      obtain ⟨hk, _hv, hes⟩ := WFpairs_cons_elim k v es h
      simp only [List.mem_cons] at hp
      rcases hp with rfl | hp
      · exact hk
      · exact ih hes p hp

theorem WFpairs_values : ∀ es : List (Bval × Bval), WFpairs es = true →
    WFlist (flattenPairs es) = true := by
  intro es
  induction es with
  | nil => intro _; rfl
  | cons e es ih =>
      intro h
      obtain ⟨k, v⟩ := e
      obtain ⟨⟨kb, rfl⟩, hv, hes⟩ := WFpairs_cons_elim k v es h
      rw [flattenPairs, WFlist, WFlist]
      rw [show WF (Bval.bstr kb) = true from rfl, hv, ih hes]
      rfl

theorem toKVPairs_flattenPairs : ∀ es : List (Bval × Bval),
    toKVPairs (flattenPairs es) = some es := by
  intro es
  induction es with
  | nil => rfl
  | cons e es ih =>
      obtain ⟨k, v⟩ := e
      rw [flattenPairs, toKVPairs, ih]
      rfl

/-! ## Python dict construction on distinct keys -/

theorem pyDictInsert_of_not_mem (d : List (Bval × Bval)) (k v : Bval)
    (h : ∀ p ∈ d, pyKeyEq p.1 k = false) : pyDictInsert d k v = d ++ [(k, v)] := by
  rw [pyDictInsert, if_neg]
  intro hc
  rw [List.any_eq_true] at hc
  obtain ⟨p, hp, hpk⟩ := hc
  rw [h p hp] at hpk
  exact absurd hpk (by simp)

theorem pyDictOfPairs_aux : ∀ (ps acc : List (Bval × Bval)),
    (∀ p ∈ acc, ∀ q ∈ ps, pyKeyEq p.1 q.1 = false) →
    ps.Pairwise (fun p q => pyKeyEq p.1 q.1 = false) →
    ps.foldl (fun d p => pyDictInsert d p.1 p.2) acc = acc ++ ps := by
  intro ps
  induction ps with
  | nil => intro acc _ _; simp
  | cons p ps ih =>
      intro acc hcross hpw
      rw [List.pairwise_cons] at hpw
      rw [List.foldl_cons]
      rw [pyDictInsert_of_not_mem acc p.1 p.2 (fun q hq => hcross q hq p (by simp))]
      rw [ih (acc ++ [p]) ?_ hpw.2]
      · simp
      · intro x hx q hq
        rw [List.mem_append] at hx
        rcases hx with hx | hx
        · exact hcross x hx q (by simp [hq])
        · simp at hx
          subst hx
          exact hpw.1 q hq

theorem pyDictOfPairs_distinct (ps : List (Bval × Bval))
    (h : ps.Pairwise fun p q => pyKeyEq p.1 q.1 = false) : pyDictOfPairs ps = ps := by
  rw [pyDictOfPairs]
  have := pyDictOfPairs_aux ps [] (by simp) h
  simpa using this

theorem pyDictBuild_flattenPairs (es : List (Bval × Bval))
    (hhash : ∀ p ∈ es, pyHashable p.1 = true)
    (hdist : es.Pairwise fun p q => pyKeyEq p.1 q.1 = false) :
    pyDictBuild (flattenPairs es) = some (.bdict es) := by
  rw [pyDictBuild, toKVPairs_flattenPairs]
  have hall : es.all (fun p => pyHashable p.1) = true := by
    rw [List.all_eq_true]
    exact hhash
  simp only [hall, if_pos, pyDictOfPairs_distinct es hdist]

/-! ## Distinctness of sorted byte-string keys -/

theorem keysSorted_pyKeyEq (es : List (Bval × Bval)) (hsorted : keysSorted es = true)
    (hWFp : WFpairs es = true) :
    es.Pairwise (fun p q => pyKeyEq p.1 q.1 = false) := by
  have hpw := keysSorted_pairwise es hsorted
  refine hpw.imp_of_mem ?_
  intro p q hp hq hlt
  obtain ⟨kb, hk⟩ := WFpairs_keys es hWFp p hp
  obtain ⟨kb', hk'⟩ := WFpairs_keys es hWFp q hq
  rw [hk, hk'] at hlt ⊢
  rw [keyBytes, keyBytes] at hlt
  have hne := byteLt_ne hlt
  rw [pyKeyEq]
  simp only [beq_eq_false_iff_ne, ne_eq]
  intro heq
  exact hne heq

/-! ## Totality of the encoder on the supported grammar -/

theorem encode_total : ∀ n : Nat,
    (∀ v : Bval, sizeOf v ≤ n → WF v = true → (bencode_data v).isSome = true) ∧
    (∀ vs : List Bval, sizeOf vs ≤ n → WFlist vs = true → (encList vs).isSome = true) ∧
    (∀ es : List (Bval × Bval), sizeOf es ≤ n → WFpairs es = true →
      (encPairs es).isSome = true) := by
  intro n
  induction n with
  | zero =>
      refine ⟨?_, ?_, ?_⟩
      · intro v hv _
        exfalso
        cases v <;> simp at hv
      · intro vs hvs _
        exfalso
        cases vs <;> simp at hvs
      · intro es hes _
        exfalso
        cases es <;> simp at hes
  | succ n ih =>
      obtain ⟨ihv, ihl, ihp⟩ := ih
      refine ⟨?_, ?_, ?_⟩
      · intro v hv hWFv
        cases v with
        | bstr bs => simp [bencode_data]
        | bint m => simp [bencode_data]
        | pstr s => simp [WF] at hWFv
        | pnone => simp [WF] at hWFv
        | blist xs =>
            have hxs : WFlist xs = true := by rw [WF] at hWFv; exact hWFv
            have hsz : sizeOf xs ≤ n := by simp at hv; omega
            have hsome := ihl xs hsz hxs
            rw [bencode_data]
            cases hxsenc : encList xs with
            | none => rw [hxsenc] at hsome; simp at hsome
            | some bs => rfl
        | bdict es =>
            have h2 : keysSorted es = true ∧ WFpairs es = true := by
              rw [WF, Bool.and_eq_true] at hWFv; exact hWFv
            have hsz : sizeOf es ≤ n := by simp at hv; omega
            have hsome := ihp es hsz h2.2
            rw [bencode_data]
            cases hpsenc : encPairs es with
            | none => rw [hpsenc] at hsome; simp at hsome
            | some ps => rfl
      · intro vs hvs hWF
        cases vs with
        | nil => rfl
        | cons x xs =>
            have h2 : WF x = true ∧ WFlist xs = true := by
              rw [WFlist, Bool.and_eq_true] at hWF; exact hWF
            have hszx : sizeOf x ≤ n := by simp at hvs; omega
            have hszxs : sizeOf xs ≤ n := by simp at hvs; omega
            have hx := ihv x hszx h2.1
            have hxs := ihl xs hszxs h2.2
            rw [encList]
            cases hbx : bencode_data x with
            | none => rw [hbx] at hx; simp at hx
            | some b =>
                cases hbxs : encList xs with
                | none => rw [hbxs] at hxs; simp at hxs
                | some bs => rfl
      · intro es hes hWFp
        cases es with
        | nil => rfl
        | cons e es =>
            obtain ⟨k, v⟩ := e
            obtain ⟨⟨kb, rfl⟩, hv, hesWF⟩ := WFpairs_cons_elim k v es hWFp
            have hszv : sizeOf v ≤ n := by simp at hes; omega
            have hszes : sizeOf es ≤ n := by simp at hes; omega
            have h1 := ihv v hszv hv
            have h2 := ihp es hszes hesWF
            cases hbv : bencode_data v with
            | none => rw [hbv] at h1; simp at h1
            | some bv =>
                cases hbes : encPairs es with
                | none => rw [hbes] at h2; simp at h2
                | some ps =>
                    rw [encPairs, hbv, hbes]
                    rfl

theorem bencode_total (v : Bval) (h : WF v = true) : ∃ b, bencode_data v = some b := by
  have hsome := (encode_total (sizeOf v)).1 v (le_refl _) h
  cases hb : bencode_data v with
  | none => rw [hb] at hsome; simp at hsome
  | some b => exact ⟨b, rfl⟩

/-! ## The decoder inverts the encoder -/

theorem decLoop_encList_spec : ∀ (fuel : Nat) (vs : List Bval) (bs : List (List Nat)),
    WFlist vs = true → encList vs = some bs → bs.flatten.length < fuel →
    (∀ rest, decLoop fuel (bs.flatten ++ 101 :: rest) = some (vs, rest)) ∧
    decLoop fuel bs.flatten = some (vs, []) := by
  intro fuel
  induction fuel with
  | zero => intro vs bs _ _ h; omega
  | succ fuel ih =>
      intro vs bs hWF henc hlen
      cases vs with
      | nil =>
          have hbs : [] = bs := by
            rw [encList] at henc
            simpa using henc
          subst hbs
          exact ⟨fun rest => by simpa using decLoop_e fuel rest, decLoop_nil fuel⟩
      | cons v vs' =>
          rw [encList] at henc
          cases hv : bencode_data v with
          | none => rw [hv] at henc; simp at henc
          | some b =>
            cases hvs : encList vs' with
            | none => rw [hv, hvs] at henc; simp at henc
            | some bs' =>
              rw [hv, hvs] at henc
              simp at henc
              subst henc
              obtain ⟨hWFv, hWFvs'⟩ : WF v = true ∧ WFlist vs' = true := by
                rw [WFlist, Bool.and_eq_true] at hWF; exact hWF
              have hlen2 : b.length + bs'.flatten.length < fuel + 1 := by
                simpa using hlen
              cases v with
              | pnone => simp [WF] at hWFv
              | pstr s => simp [WF] at hWFv
              | bstr s =>
                  have hb : b = encStrBytes s := by
                    rw [bencode_data] at hv
                    simpa using hv.symm
                  subst hb
                  have hb1 : 1 ≤ (encStrBytes s).length := by
                    rw [encStrBytes, List.length_append, List.length_cons]
                    omega
                  have hT := ih vs' bs' hWFvs' hvs (by omega)
                  constructor
                  · intro rest
                    rw [show (encStrBytes s :: bs').flatten ++ 101 :: rest
                        = natDecimal s.length ++ 58 :: (s ++ (bs'.flatten ++ 101 :: rest)) by
                      simp [encStrBytes]]
                    rw [decLoop_strform fuel (natDecimal s.length) s _
                      (natDecimal_ne_nil _) (natDecimal_digits _) (digitsVal_natDecimal _)]
                    rw [hT.1 rest]
                  · rw [show (encStrBytes s :: bs').flatten
                        = natDecimal s.length ++ 58 :: (s ++ bs'.flatten) by
                      simp [encStrBytes]]
                    rw [decLoop_strform fuel (natDecimal s.length) s _
                      (natDecimal_ne_nil _) (natDecimal_digits _) (digitsVal_natDecimal _)]
                    rw [hT.2]
              | bint m =>
                  have hb : b = 105 :: intDecimal m ++ [101] := by
                    rw [bencode_data] at hv
                    simpa using hv.symm
                  subst hb
                  have hge : (105 :: intDecimal m ++ [101]).length
                      = (intDecimal m).length + 2 := by simp
                  have hT := ih vs' bs' hWFvs' hvs (by omega)
                  constructor
                  · intro rest
                    rw [show ((105 :: intDecimal m ++ [101]) :: bs').flatten ++ 101 :: rest
                        = 105 :: (intDecimal m ++ 101 :: (bs'.flatten ++ 101 :: rest)) by simp]
                    rw [decLoop_intform fuel m (bs'.flatten ++ 101 :: rest)]
                    rw [hT.1 rest]
                  · rw [show ((105 :: intDecimal m ++ [101]) :: bs').flatten
                        = 105 :: (intDecimal m ++ 101 :: bs'.flatten) by simp]
                    rw [decLoop_intform fuel m bs'.flatten]
                    rw [hT.2]
              | blist xs =>
                  rw [bencode_data] at hv
                  cases hxs : encList xs with
                  | none => rw [hxs] at hv; simp at hv
                  | some inner =>
                      rw [hxs] at hv
                      simp at hv
                      have hb : b = 108 :: inner.flatten ++ [101] := hv.symm
                      subst hb
                      have hxsWF : WFlist xs = true := by rw [WF] at hWFv; exact hWFv
                      have hblen : (108 :: inner.flatten ++ [101]).length
                          = inner.flatten.length + 2 := by simp
                      have hinner := ih xs inner hxsWF hxs (by omega)
                      have hT := ih vs' bs' hWFvs' hvs (by omega)
                      constructor
                      · intro rest
                        rw [show ((108 :: inner.flatten ++ [101]) :: bs').flatten ++ 101 :: rest
                            = 108 :: (inner.flatten ++ 101 :: (bs'.flatten ++ 101 :: rest))
                          by simp]
                        rw [decLoop_l]
                        simp only [hinner.1 (bs'.flatten ++ 101 :: rest), hT.1 rest]
                      · rw [show ((108 :: inner.flatten ++ [101]) :: bs').flatten
                            = 108 :: (inner.flatten ++ 101 :: bs'.flatten) by simp]
                        rw [decLoop_l]
                        simp only [hinner.1 bs'.flatten, hT.2]
              | bdict es =>
                  rw [bencode_data] at hv
                  cases hps : encPairs es with
                  | none => rw [hps] at hv; simp at hv
                  | some ps =>
                      rw [hps] at hv
                      simp at hv
                      have hb : b = 100 ::
                          (List.map (fun p => encStrBytes p.1 ++ p.2) (sortPairs ps)).flatten
                          ++ [101] := hv.symm
                      subst hb
                      obtain ⟨hsorted, hWFp⟩ : keysSorted es = true ∧ WFpairs es = true := by
                        rw [WF, Bool.and_eq_true] at hWFv; exact hWFv
                      have hsort : sortPairs ps = ps := encPairs_sortPairs es ps hps hsorted
                      have hinterEq := encPairs_interleave es ps hps
                      have hWFflat := WFpairs_values es hWFp
                      have hflat_eq : (List.map (fun p => encStrBytes p.1 ++ p.2) ps).flatten
                          = (interleaveEnc ps).flatten := (interleave_flatten ps).symm
                      have hdict := pyDictBuild_flattenPairs es
                        (fun p hp => by
                          obtain ⟨kb, hk⟩ := WFpairs_keys es hWFp p hp
                          rw [hk]; rfl)
                        (keysSorted_pyKeyEq es hsorted hWFp)
                      have hlen3 : (interleaveEnc ps).flatten.length + 2 + bs'.flatten.length
                          < fuel + 1 := by
                        rw [hsort, hflat_eq] at hlen2
                        have hge : (100 :: (interleaveEnc ps).flatten ++ [101]).length
                            = (interleaveEnc ps).flatten.length + 2 := by simp
                        omega
                      have hinner := ih (flattenPairs es) (interleaveEnc ps) hWFflat hinterEq
                        (by omega)
                      have hT := ih vs' bs' hWFvs' hvs (by omega)
                      constructor
                      · intro rest
                        rw [hsort, hflat_eq]
                        rw [show ((100 :: (interleaveEnc ps).flatten ++ [101]) :: bs').flatten
                              ++ 101 :: rest
                            = 100 :: ((interleaveEnc ps).flatten
                              ++ 101 :: (bs'.flatten ++ 101 :: rest)) by simp]
                        rw [decLoop_d]
                        simp only [hinner.1 (bs'.flatten ++ 101 :: rest), hdict, hT.1 rest]
                      · rw [hsort, hflat_eq]
                        rw [show ((100 :: (interleaveEnc ps).flatten ++ [101]) :: bs').flatten
                            = 100 :: ((interleaveEnc ps).flatten ++ 101 :: bs'.flatten) by simp]
                        rw [decLoop_d]
                        simp only [hinner.1 bs'.flatten, hdict, hT.2]

theorem decode_bencode_encode (v : Bval) (hWF : WF v = true) (b : List Nat)
    (henc : bencode_data v = some b) : decode_bencode b = some v := by
  have hlist : encList [v] = some [b] := by rw [encList, henc, encList]
  have hWFl : WFlist [v] = true := by simp [WFlist, hWF]
  have hmain := (decLoop_encList_spec (b.length + 1) [v] [b] hWFl hlist (by simp)).2
  rw [show ([b] : List (List Nat)).flatten = b by simp] at hmain
  rw [decode_bencode, hmain]

/-! ## C3: decode after encode -/

/-- **C3.**  For every value of the supported grammar (byte strings,
integers, lists, dictionaries with byte-string keys, nested arbitrarily;
a Python dict being modelled by its key-sorted entry list), encoding
succeeds and decoding the encoding returns the value:
`decode_bencode (bencode_data v) = v`. -/
theorem decode_encode_roundtrip (v : Bval) (h : WF v = true) :
    (bencode_data v).bind decode_bencode = some v := by
  obtain ⟨b, hb⟩ := bencode_total v h
  rw [hb]
  exact decode_bencode_encode v h b hb

/-- Witness for C3 on a nested dictionary value. -/
theorem decode_encode_roundtrip_witness :
    WF (Bval.bdict [(.bstr [97], .blist [.bint (-3), .bstr []]),
      (.bstr [98, 0], .bint 12)]) = true ∧
    (bencode_data (Bval.bdict [(.bstr [97], .blist [.bint (-3), .bstr []]),
      (.bstr [98, 0], .bint 12)])).bind decode_bencode
      = some (Bval.bdict [(.bstr [97], .blist [.bint (-3), .bstr []]),
        (.bstr [98, 0], .bint 12)]) :=
  ⟨rfl, decode_encode_roundtrip _ rfl⟩

/-! ## C1: encode after decode on canonical input -/

/-- **C1.**  Every canonical bencoded byte slice — the encoding of a
well-formed value, with dictionary keys in strict lexicographic byte order
and minimally written integers — decodes successfully, and re-encoding the
decoded value yields the original bytes exactly (the property used to
compute the info-hash from the decoded `info` sub-mapping). -/
theorem canonical_encode_decode (b : List Nat) (h : Canonical b) :
    ∃ v, decode_bencode b = some v ∧ bencode_data v = some b := by
  obtain ⟨v, hWF, henc⟩ := h
  exact ⟨v, decode_bencode_encode v hWF b henc, henc⟩

/-- Witness for C1 on the canonical dictionary `d1:ai2ee`. -/
theorem canonical_encode_decode_witness :
    Canonical [100, 49, 58, 97, 105, 50, 101, 101] ∧
    ∃ v, decode_bencode [100, 49, 58, 97, 105, 50, 101, 101] = some v ∧
      bencode_data v = some [100, 49, 58, 97, 105, 50, 101, 101] := by
  have hc : Canonical [100, 49, 58, 97, 105, 50, 101, 101] :=
    ⟨.bdict [(.bstr [97], .bint 2)], rfl, rfl⟩
  exact ⟨hc, canonical_encode_decode _ hc⟩

/-! ## C4: decoding integer tokens -/

theorem decLoop_int_payload (fuel : Nat) (payload tail : List Nat)
    (hne : ∀ d ∈ payload, d ≠ 101) :
    decLoop (fuel + 1) (105 :: (payload ++ 101 :: tail)) =
      match pyIntParse payload with
      | none => none
      | some n =>
          match decLoop fuel tail with
          | none => none
          | some (es, t) => some (.bint n :: es, t) := by
  rw [decLoop_i]
  have h1 : pyFind 101 (105 :: (payload ++ 101 :: tail)) = some (105 :: payload).length := by
    rw [show 105 :: (payload ++ 101 :: tail) = (105 :: payload) ++ 101 :: tail by simp]
    refine pyFind_append_cons _ _ _ ?_
    intro x hx
    simp only [List.mem_cons] at hx
    rcases hx with rfl | hx
    · omega
    · exact hne x hx
  have h2 : ((105 :: (payload ++ 101 :: tail)).drop 1).take ((105 :: payload).length - 1)
      = payload := by
    simp only [List.length_cons, Nat.add_sub_cancel, List.drop_succ_cons, List.drop_zero]
    exact List.take_left _ _
  have h3 : (105 :: (payload ++ 101 :: tail)).drop ((105 :: payload).length + 1) = tail := by
    rw [show 105 :: (payload ++ 101 :: tail) = (105 :: payload) ++ 101 :: tail by simp]
    exact drop_append_cons _ _ _
  rw [h1]
  simp only [h2, h3]

/-- **C4 (amended).**  On an integer token `i...e` the decoder raises for an
empty payload (`int(b'')` fails), but it does not reject `-0` or leading
zeros: any nonempty all-digit payload — leading zeros included — decodes
to its decimal value, and a `-`-prefixed all-digit payload (including
`-0`, which yields `0`) decodes to the negated value. -/
theorem integer_token_decoding :
    decode_bencode [105, 101] = none ∧
    (∀ ds : List Nat, ds ≠ [] → (∀ d ∈ ds, 48 ≤ d ∧ d ≤ 57) →
      decode_bencode (105 :: ds ++ [101]) = some (.bint (digitsVal ds))) ∧
    (∀ ds : List Nat, ds ≠ [] → (∀ d ∈ ds, 48 ≤ d ∧ d ≤ 57) →
      decode_bencode (105 :: 45 :: ds ++ [101])
        = some (.bint (-(digitsVal ds : Int)))) := by
  refine ⟨rfl, ?_, ?_⟩
  · intro ds hne hdig
    rw [decode_bencode]
    have hElen : (105 :: (ds ++ 101 :: ([] : List Nat))).length + 1
        = (ds.length + 1) + 1 + 1 := by simp
    rw [show (105 :: ds ++ [101] : List Nat) = 105 :: (ds ++ 101 :: []) by simp, hElen,
      decLoop_int_payload (ds.length + 1 + 1) ds [] (fun d hd => by have := hdig d hd; omega),
      pyIntParse_of_digits ds hne hdig]
    have hnil : decLoop (ds.length + 1 + 1) ([] : List Nat) = some ([], []) :=
      decLoop_nil (ds.length + 1)
    simp only [hnil]
  · intro ds hne hdig
    rw [decode_bencode]
    have hparse : pyIntParse (45 :: ds) = some (-(digitsVal ds : Int)) := by
      have h43 : ¬ (45 : Nat) = 43 := by omega
      simp [pyIntParse, h43, parseDigits_of_digits ds hne hdig]
    have hElen : (105 :: ((45 :: ds) ++ 101 :: ([] : List Nat))).length + 1
        = (ds.length + 2) + 1 + 1 := by simp
    rw [show (105 :: 45 :: ds ++ [101] : List Nat) = 105 :: ((45 :: ds) ++ 101 :: []) by simp,
      hElen,
      decLoop_int_payload (ds.length + 2 + 1) (45 :: ds) []
        (fun d hd => by
          simp only [List.mem_cons] at hd
          rcases hd with rfl | hd
          · omega
          · have := hdig d hd; omega),
      hparse]
    have hnil : decLoop (ds.length + 2 + 1) ([] : List Nat) = some ([], []) :=
      decLoop_nil (ds.length + 2)
    simp only [hnil]

/-- Witness for C4 (amended): `i007e` decodes to `7` and `i-0e` to `0`. -/
theorem integer_token_decoding_witness :
    decode_bencode [105, 48, 48, 55, 101] = some (.bint 7) ∧
    decode_bencode [105, 45, 48, 101] = some (.bint 0) := by
  constructor
  · exact integer_token_decoding.2.1 [48, 48, 55] (by simp) (by decide)
  · exact integer_token_decoding.2.2 [48] (by simp) (by decide)

/-- **C4 (counterexample).**  The decoder does not raise on `-0` or on
leading zeros: `i-0e` decodes to `0` and `i007e` decodes to `7`, where the
claim demands a decode error for both. -/
theorem integer_token_decoding_cex :
    decode_bencode [105, 45, 48, 101] = some (.bint 0) ∧
    decode_bencode [105, 48, 48, 55, 101] = some (.bint 7) :=
  ⟨rfl, rfl⟩

/-! ## C5: no dictionary key validation -/

/-- **C5 (amended).**  The decoder performs no key validation on
dictionaries: any sequence of encodable key/value entries whose keys are
hashable and pairwise distinct — byte-string keys in any order, or even
integer keys — is decoded back as given.  The only dictionary checks are
an even element count and key hashability. -/
theorem dict_decoding_no_key_validation (es : List (Bval × Bval)) (bs : List (List Nat))
    (hWF : WFlist (flattenPairs es) = true)
    (henc : encList (flattenPairs es) = some bs)
    (hhash : ∀ p ∈ es, pyHashable p.1 = true)
    (hdist : es.Pairwise fun p q => pyKeyEq p.1 q.1 = false) :
    decode_bencode (100 :: bs.flatten ++ [101]) = some (.bdict es) := by
  rw [decode_bencode]
  have hElen : (100 :: (bs.flatten ++ 101 :: ([] : List Nat))).length + 1
      = (bs.flatten.length + 1) + 1 + 1 := by simp
  rw [show (100 :: bs.flatten ++ [101] : List Nat) = 100 :: (bs.flatten ++ 101 :: []) by simp,
    hElen, decLoop_d]
  have hmain := (decLoop_encList_spec (bs.flatten.length + 1 + 1) (flattenPairs es) bs
    hWF henc (by omega)).1 []
  have hdict := pyDictBuild_flattenPairs es hhash hdist
  have hnil : decLoop (bs.flatten.length + 1 + 1) ([] : List Nat) = some ([], []) :=
    decLoop_nil (bs.flatten.length + 1)
  simp only [hmain, hdict, hnil]

/-- Witness for C5 (amended) on the out-of-order dictionary `d1:bi1e1:ai2ee`. -/
theorem dict_decoding_no_key_validation_witness :
    decode_bencode [100, 49, 58, 98, 105, 49, 101, 49, 58, 97, 105, 50, 101, 101]
      = some (.bdict [(.bstr [98], .bint 1), (.bstr [97], .bint 2)]) := by
  have h := dict_decoding_no_key_validation
    [(.bstr [98], .bint 1), (.bstr [97], .bint 2)]
    [[49, 58, 98], [105, 49, 101], [49, 58, 97], [105, 50, 101]]
    rfl rfl (by decide)
    (by
      refine List.Pairwise.cons ?_ (List.pairwise_singleton _ _)
      intro q hq
      simp only [List.mem_singleton] at hq
      subst hq
      rfl)
  exact h

/-- **C5 (counterexample).**  `d1:bi1e1:ai2ee` (byte-string keys out of
lexicographic order) and `di1ei2ee` (an integer key) both decode
successfully, where the claim demands a decode error for each. -/
theorem dict_decoding_no_key_validation_cex :
    decode_bencode [100, 49, 58, 98, 105, 49, 101, 49, 58, 97, 105, 50, 101, 101]
      = some (.bdict [(.bstr [98], .bint 1), (.bstr [97], .bint 2)]) ∧
    decode_bencode [100, 105, 49, 101, 105, 50, 101, 101]
      = some (.bdict [(.bint 1, .bint 2)]) :=
  ⟨rfl, rfl⟩

/-! ## C10: text strings encode with a character count but UTF-8 content -/

theorem append_cons58_inj : ∀ (a b x y : List Nat),
    (∀ t ∈ a, t ≠ 58) → (∀ t ∈ b, t ≠ 58) →
    a ++ 58 :: x = b ++ 58 :: y → a = b ∧ x = y := by
  intro a
  induction a with
  | nil =>
      intro b x y _ hb h
      cases b with
      | nil => simpa using h
      | cons t bs =>
          exfalso
          simp only [List.nil_append, List.cons_append, List.cons.injEq] at h
          exact hb t (by simp) h.1.symm
  | cons s as ih =>
      intro b x y ha hb h
      cases b with
      | nil =>
          exfalso
          simp only [List.nil_append, List.cons_append, List.cons.injEq] at h
          exact ha s (by simp) h.1
      | cons t bs =>
          simp only [List.cons_append, List.cons.injEq] at h
          obtain ⟨rfl, h2⟩ := h
          obtain ⟨h3, h4⟩ := ih bs x y (fun u hu => ha u (by simp [hu]))
            (fun u hu => hb u (by simp [hu])) h2
          exact ⟨by rw [h3], h4⟩

theorem utf8_ascii_length : ∀ cs : List Char, (∀ c ∈ cs, c.toNat < 128) →
    ((cs.map utf8EncodeChar).flatten).length = cs.length := by
  intro cs
  induction cs with
  | nil => intro _; rfl
  | cons c cs ih =>
      intro h
      have hc : utf8EncodeChar c = [c.toNat] := by
        simp only [utf8EncodeChar]
        rw [if_pos (h c (by simp))]
      simp [hc, ih (fun x hx => h x (by simp [hx]))]

/-- **C10.**  Encoding a Python `str` emits the character count
`len(s)` as the length declaration but the UTF-8 bytes of `s` as the
content; whenever the UTF-8 byte length differs from the character count
(any non-ASCII string) the declared length does not match the content and
the output is not a canonical bencoded string (it is the encoding of no
well-formed value); for pure-ASCII strings the two lengths agree. -/
theorem str_encoding_utf8 (s : String) :
    bencode_data (.pstr s) = some (natDecimal s.length ++ 58 :: pyUtf8 s) ∧
    ((pyUtf8 s).length ≠ s.length →
      ¬ Canonical (natDecimal s.length ++ 58 :: pyUtf8 s)) ∧
    ((∀ c ∈ s.data, c.toNat < 128) → (pyUtf8 s).length = s.length) := by
  refine ⟨rfl, ?_, ?_⟩
  · rintro hne ⟨v, hWF, henc⟩
    cases v with
    | pstr t => simp [WF] at hWF
    | pnone => simp [WF] at hWF
    | bstr bs =>
        rw [bencode_data] at henc
        simp only [Option.some.injEq] at henc
        rw [encStrBytes] at henc
        obtain ⟨h1, h2⟩ := append_cons58_inj _ _ _ _
          (fun t ht => by have := natDecimal_digits bs.length t ht; omega)
          (fun t ht => by have := natDecimal_digits s.length t ht; omega) henc
        have hlen : bs.length = s.length := by
          have hdv := congrArg digitsVal h1
          rwa [digitsVal_natDecimal, digitsVal_natDecimal] at hdv
        rw [h2] at hlen
        exact hne hlen
    | bint m =>
        rw [bencode_data] at henc
        simp only [Option.some.injEq] at henc
        obtain ⟨d, ds, hnd⟩ : ∃ d ds, natDecimal s.length = d :: ds := by
          cases h : natDecimal s.length with
          | nil => exact absurd h (natDecimal_ne_nil _)
          | cons d ds => exact ⟨d, ds, rfl⟩
        rw [hnd] at henc
        simp only [List.cons_append, List.cons.injEq] at henc
        have hdd := natDecimal_digits s.length d (by rw [hnd]; simp)
        omega
    | blist xs =>
        rw [bencode_data] at henc
        obtain ⟨d, ds, hnd⟩ : ∃ d ds, natDecimal s.length = d :: ds := by
          cases h : natDecimal s.length with
          | nil => exact absurd h (natDecimal_ne_nil _)
          | cons d ds => exact ⟨d, ds, rfl⟩
        have hdd := natDecimal_digits s.length d (by rw [hnd]; simp)
        cases hxs : encList xs with
        | none => rw [hxs] at henc; simp at henc
        | some inner =>
            rw [hxs] at henc
            simp only [Option.some.injEq] at henc
            rw [hnd] at henc
            simp only [List.cons_append, List.cons.injEq] at henc
            omega
    | bdict es =>
        rw [bencode_data] at henc
        obtain ⟨d, ds, hnd⟩ : ∃ d ds, natDecimal s.length = d :: ds := by
          cases h : natDecimal s.length with
          | nil => exact absurd h (natDecimal_ne_nil _)
          | cons d ds => exact ⟨d, ds, rfl⟩
        have hdd := natDecimal_digits s.length d (by rw [hnd]; simp)
        cases hps : encPairs es with
        | none => rw [hps] at henc; simp at henc
        | some ps =>
            rw [hps] at henc
            simp only [Option.some.injEq] at henc
            rw [hnd] at henc
            simp only [List.cons_append, List.cons.injEq] at henc
            omega
  · intro hascii
    rw [show s.length = s.data.length from rfl, pyUtf8]
    exact utf8_ascii_length s.data hascii

/-- Witness for C10: the one-character non-ASCII string `"é"` (two UTF-8
bytes, character count one) and the ASCII string `"ok"`. -/
theorem str_encoding_utf8_witness :
    (pyUtf8 "é").length ≠ ("é" : String).length ∧
    ¬ Canonical (natDecimal ("é" : String).length ++ 58 :: pyUtf8 "é") ∧
    (pyUtf8 "ok").length = ("ok" : String).length := by
  refine ⟨by decide, (str_encoding_utf8 "é").2.1 (by decide),
    (str_encoding_utf8 "ok").2.2 (by decide)⟩

end Torrent
